import Mathlib

/-!
Shallow embedding of the dat-archive container codec
(include/dat-archive.h, source/dat-archive.cpp).

Files are modelled as lists of natural numbers (bytes); multi-byte integer
fields use the little-endian layout of the reference platform.  The zlib
compression engine and the CRC-32 primitive are external collaborators:
CRC-32 is implemented bit-exactly (polynomial 0xEDB88320 with the pre- and
post-conditioning performed by zlib's crc32), while deflate and inflate are
modelled by an abstract ZlibModel whose soundness properties capture the
engine contract (a deflate stream is self-delimiting, inflate reports
Z_STREAM_END exactly when one complete stream has been consumed, and
decompression inverts compression).
-/

namespace DatArchive

/-- The signature used by datarchive files, DATFILESIGNATURE in the header. -/
def DATFILESIGNATURE : List Nat := [0xB1, 0x44, 0x41, 0x54]

/-- The supported format version, DATFILEVERSION in the header. -/
def DATFILEVERSION : Nat := 0x01

/-- Streaming buffer bound, CHUNKSIZE in the header (256 KiB). -/
def CHUNKSIZE : Nat := 262144

/-- Compression method codes: the C++ enum class CompressionMethod has
underlying type uint8; NONE = 0 and ZLIB = 1, and a table record stores the
raw byte, so the model keeps the raw numeric value. -/
def cmNONE : Nat := 0

/-- ZLIB compression method code. -/
def cmZLIB : Nat := 1

/-- Flags: bit 0 is the (reserved) encrypted bit. -/
structure Flags where
  encrypted : Bool
deriving DecidableEq, Repr

instance : Inhabited Flags := ⟨⟨false⟩⟩

/-- Flags::operator uint8: bit 0 holds the encrypted flag. -/
def Flags.toByte (f : Flags) : Nat := if f.encrypted then 1 else 0

/-- Flags(uint8_t flagByte): reads bit 0 of the byte. -/
def Flags.ofByte (b : Nat) : Flags := ⟨b.testBit 0⟩

/-- TableEntry: metadata about one file stored inside an archive.
Field defaults mirror the in-class member initializers of the C++ struct. -/
structure TableEntry where
  name : List Nat := []
  compressionMethod : Nat := cmNONE
  fileFlags : Flags := ⟨false⟩
  crc32 : Nat := 0
  originalSize : Nat := 0
  dataStart : Nat := 0
  dataEnd : Nat := 0
deriving DecidableEq, Repr

instance : Inhabited TableEntry := ⟨{}⟩

/-- TableEntry::sizeInArchive: dataEnd - dataStart. -/
def TableEntry.sizeInArchive (e : TableEntry) : Nat := e.dataEnd - e.dataStart

/-!  Little-endian integer codec.  The C++ source writes raw in-memory
representations of integer fields; the reference platform is little-endian,
so a w-byte field holds the value modulo 256 to the w. -/

/-- Encode a value as w little-endian bytes (value taken modulo 256 to the w,
matching truncation to a fixed-width machine integer). -/
def leBytes : Nat → Nat → List Nat
  | 0, _ => []
  | w + 1, v => (v % 256) :: leBytes w (v / 256)

/-- Decode a little-endian byte list into a value (what reading the raw bytes
into an integer variable yields on the reference platform). -/
def decodeLE : List Nat → Nat
  | [] => 0
  | b :: bs => b + 256 * decodeLE bs

/-!  CRC-32 exactly as zlib computes it: bitwise reflected polynomial
0xEDB88320, with the initial and final xor with 0xFFFFFFFF that zlib's
crc32 performs internally, so that crc32z c [] = c and crc32z 0 starts a
fresh checksum (crc32(0, Z_NULL, 0) = 0). -/

/-- One shift-xor round of the reflected CRC-32 polynomial. -/
def crcRound (c : Nat) : Nat := if c % 2 = 1 then (c / 2) ^^^ 0xEDB88320 else c / 2

/-- Fold one byte into a raw (pre-conditioned) CRC-32 accumulator. -/
def crcByte (c b : Nat) : Nat :=
  crcRound (crcRound (crcRound (crcRound (crcRound (crcRound (crcRound (crcRound (c ^^^ b % 256))))))))

/-- zlib's crc32(c, data, len): pre/post conditioning around a byte fold. -/
def crc32z (c : Nat) (data : List Nat) : Nat :=
  (data.foldl crcByte (c ^^^ 0xFFFFFFFF)) ^^^ 0xFFFFFFFF

/-!  Byte streams.  An input stream models std::ifstream: a position, a fail
flag (failbit/eofbit: once set, every extraction is a no-op), and a bad flag
(badbit: a hardware-level read error; never set by the pure model itself but
carried so the reader's behaviour on such errors can be stated).
istream::read stores the characters it managed to extract and leaves the
rest of the destination object untouched; every destination in this codec is
zero-initialized before the read, so a short read yields the extracted bytes
followed by zeros, which is exactly what readN returns. -/

structure IStream where
  data : List Nat
  pos : Nat := 0
  failFlag : Bool := false
  badFlag : Bool := false
deriving DecidableEq, Repr

/-- istream::read(buf, n) into a zero-initialized destination: returns the n
destination bytes after the read together with the updated stream. -/
def IStream.readN (s : IStream) (n : Nat) : List Nat × IStream :=
  if s.failFlag then (List.replicate n 0, s)
  else
    let k := min n (s.data.length - s.pos)
    (((s.data.drop s.pos).take k) ++ List.replicate (n - k) 0,
      { s with pos := s.pos + k, failFlag := decide (k < n) })

/-- istream::seekg on a file stream: sets the position (seeking past the end
of a file succeeds); a failed stream ignores the request. -/
def IStream.seekg (s : IStream) (p : Nat) : IStream :=
  if s.failFlag then s else { s with pos := p }

/-- istream::clear. -/
def IStream.clear (s : IStream) : IStream := { s with failFlag := false }

/-- istream::tellg: the position, or pos_type(-1) (cast to uint64) after a
failure. -/
def IStream.tellg (s : IStream) : Nat := if s.failFlag then 2 ^ 64 - 1 else s.pos

/-!  Output streams (std::fstream opened for writing): writing at a position
overwrites in place and extends the file when writing past its end. -/

/-- Overwrite l at position p with d (zero-filling any gap, which never
occurs in this codec: every seek target is within the file). -/
def writeAt (l : List Nat) (p : Nat) (d : List Nat) : List Nat :=
  l.take p ++ List.replicate (p - l.length) 0 ++ d ++ l.drop (p + d.length)

structure OStream where
  data : List Nat
  pos : Nat
deriving DecidableEq, Repr

/-- ostream::write. -/
def OStream.write (s : OStream) (d : List Nat) : OStream :=
  ⟨writeAt s.data s.pos d, s.pos + d.length⟩

/-- ostream::seekp. -/
def OStream.seekp (s : OStream) (p : Nat) : OStream := ⟨s.data, p⟩

/-!  The in-memory table index: std::map of name to TableEntry, modelled as
an association list kept sorted by key; emplace inserts a new key at its
sorted position and leaves the map unchanged when the key is present. -/

/-- Strict lexicographic order on byte strings (std::string operator less). -/
def byteLt : List Nat → List Nat → Bool
  | [], [] => false
  | [], _ :: _ => true
  | _ :: _, [] => false
  | a :: as, b :: bs => a < b || (a = b && byteLt as bs)

/-- std::map::emplace: sorted insert, first binding wins. -/
def mapEmplace (m : List (List Nat × TableEntry)) (k : List Nat) (v : TableEntry) :
    List (List Nat × TableEntry) :=
  match m with
  | [] => [(k, v)]
  | (k', v') :: rest =>
    if byteLt k k' then (k, v) :: (k', v') :: rest
    else if k = k' then (k', v') :: rest
    else (k', v') :: mapEmplace rest k v

/-- std::map lookup (count / at / find). -/
def mapLookup (m : List (List Nat × TableEntry)) (k : List Nat) : Option TableEntry :=
  match m with
  | [] => none
  | (k', v) :: rest => if k = k' then some v else mapLookup rest k

/-!  The abstract zlib engine.  inflate is driven chunk by chunk; its return
code is a function of the complete compressed input consumed so far (the
stream is reinitialized by inflateInit on every extraction), and once it
reports Z_STREAM_END the decompressed output written to the destination
buffer is the decompression of the consumed input. -/

inductive InflateRc where
  | ok
  | streamEnd
  | needDict
  | dataError
  | memError
deriving DecidableEq, Repr

structure ZlibModel where
  compress : List Nat → List Nat
  inflateRc : List Nat → InflateRc
  inflateOut : List Nat → List Nat

/-- The engine contract used by the round-trip theorems: deflate output is
nonempty and self-delimiting, inflate reports Z_STREAM_END exactly on a
complete stream, keeps returning Z_OK on a strict prefix of one, and its
output on a complete stream is the original content. -/
structure ZlibModel.Sound (Z : ZlibModel) : Prop where
  compress_ne_nil : ∀ c, Z.compress c ≠ []
  rc_end : ∀ c, Z.inflateRc (Z.compress c) = InflateRc.streamEnd
  rc_short : ∀ c p q, p ++ q = Z.compress c → q ≠ [] → Z.inflateRc p = InflateRc.ok
  out_spec : ∀ c, Z.inflateOut (Z.compress c) = c

/-!  ######################  Archive Reader  ###################### -/

structure DatArchiveReader where
  archive : IStream
  archiveVersion : Nat := 0
  tableOffset : Nat := 0
  entries : List (List Nat × TableEntry) := []
  openFlag : Bool := false
  badFlag : Bool := false
deriving DecidableEq, Repr

instance : Inhabited DatArchiveReader := ⟨⟨⟨[], 0, false, false⟩, 0, 0, [], false, false⟩⟩

/-- DatArchiveReader::validateArchive. -/
def validateArchive (signature : List Nat) (version : Nat) : Bool :=
  signature = DATFILESIGNATURE ∧ version = DATFILEVERSION

/-- Parse the fields of one table record after its 2-byte name length
(loadTable's loop body): name, compression method byte, flags byte, crc32,
original size, data start, data end.  Reads that run off the end of the file
leave the remaining (zero-initialized) field bytes at zero, matching the
default member values of a fresh TableEntry. -/
def parseFields (nameLength : Nat) (s : IStream) : TableEntry × IStream :=
  let rn := s.readN nameLength
  let rc := rn.2.readN 1
  let rf := rc.2.readN 1
  let rcrc := rf.2.readN 4
  let ros := rcrc.2.readN 8
  let rds := ros.2.readN 8
  let rde := rds.2.readN 8
  (⟨rn.1, decodeLE rc.1, Flags.ofByte (decodeLE rf.1), decodeLE rcrc.1,
     decodeLE ros.1, decodeLE rds.1, decodeLE rde.1⟩, rde.2)

/-- loadTable's record loop: while a 2-byte name length can be read, parse a
record and emplace it into the index keyed by its name.  The fuel argument
only bounds the iteration count (each successful guard read consumes at
least two bytes, so data length + 1 iterations always suffice). -/
def parseLoop : Nat → IStream → List (List Nat × TableEntry) →
    List (List Nat × TableEntry) × IStream
  | 0, s, acc => (acc, s)
  | fuel + 1, s, acc =>
    let rl := s.readN 2
    if rl.2.failFlag then (acc, rl.2)
    else
      let pe := parseFields (decodeLE rl.1) rl.2
      parseLoop fuel pe.2 (mapEmplace acc pe.1.name pe.1)

/-- DatArchiveReader::loadTable: seek to the table offset, fail if the seek
failed or the offset is zero, otherwise parse records until end of stream,
then clear the stream state and rewind. -/
def loadTable (tOff : Nat) (s : IStream) :
    Bool × IStream × List (List Nat × TableEntry) :=
  let s0 := s.seekg tOff
  if s0.failFlag ∨ tOff = 0 then (false, s0, [])
  else
    let pm := parseLoop (s0.data.length + 1) s0 []
    (true, (pm.2.clear).seekg 0, pm.1)

/-- DatArchiveReader::openArchive; the argument is the contents of the file
at the given path (none when it does not exist or cannot be opened).
Returns the resulting reader state and the boolean result. -/
def openArchive : Option (List Nat) → DatArchiveReader × Bool
  | none => (⟨⟨[], 0, false, false⟩, 0, 0, [], false, false⟩, false)
  | some bytes =>
    let s0 : IStream := ⟨bytes, 0, false, false⟩
    let rsig := s0.readN 4
    let rver := rsig.2.readN 1
    let ver := decodeLE rver.1
    if ¬ validateArchive rsig.1 ver then
      (⟨rver.2, ver, 0, [], true, true⟩, false)
    else
      let roff := rver.2.readN 8
      let tOff := decodeLE roff.1
      let lt := loadTable tOff roff.2
      (⟨lt.2.1, ver, tOff, lt.2.2, true, false⟩, lt.1)

/-- DatArchiveReader::closeArchive (verbatim, including the inverted open
check on its first line). -/
def DatArchiveReader.closeArchive (r : DatArchiveReader) : Bool × DatArchiveReader :=
  if r.openFlag then (false, r)
  else (true, { r with archive := ⟨[], 0, false, false⟩, openFlag := false })

/-- DatArchiveReader::size. -/
def DatArchiveReader.size (r : DatArchiveReader) : Nat := r.entries.length

/-- DatArchiveReader::contains. -/
def DatArchiveReader.contains (r : DatArchiveReader) (name : List Nat) : Bool :=
  (mapLookup r.entries name).isSome

/-- DatArchiveReader::listFiles: the keys in index order. -/
def DatArchiveReader.listFiles (r : DatArchiveReader) : List (List Nat) :=
  r.entries.map (fun pair => pair.1)

/-- DatArchiveReader::getTable: the table entries in index order. -/
def DatArchiveReader.getTable (r : DatArchiveReader) : List TableEntry :=
  r.entries.map (fun pair => pair.2)

/-- DatArchiveReader::getTableOffset. -/
def DatArchiveReader.getTableOffset (r : DatArchiveReader) : Nat := r.tableOffset

/-- DatArchiveReader::isOpen. -/
def DatArchiveReader.isOpen (r : DatArchiveReader) : Bool := r.openFlag

/-- DatArchiveReader::isBad. -/
def DatArchiveReader.isBad (r : DatArchiveReader) : Bool := r.badFlag

/-- DatArchiveReader::extractFile (CompressionMethod NONE): seek to the data
start, read the on-disk payload into the destination buffer, CRC it, and
return how far the stream advanced (zero on a checksum mismatch).  Returns
the return value, the destination buffer contents and the stream. -/
def extractFile (e : TableEntry) (validateCrc : Bool) (s : IStream) :
    Nat × List Nat × IStream :=
  let s0 := s.seekg e.dataStart
  let rd := s0.readN e.sizeInArchive
  let calculatedCrc := crc32z 0 rd.1
  if validateCrc ∧ ¬ calculatedCrc = e.crc32 then (0, rd.1, rd.2)
  else (rd.2.tellg - e.dataStart, rd.1, rd.2)

/-- Result of an extraction: the returned size, the reader's bad flag after
the call, the destination buffer contents, and the stream. -/
structure ExtractResult where
  ret : Nat
  badFlag : Bool
  buffer : List Nat
  stream : IStream
deriving DecidableEq, Repr

/-- The chunk length chosen by zlibExtractFile's loop at stream position
pos: a full CHUNKSIZE while strictly more than CHUNKSIZE remains before
dataEnd, otherwise whatever remains. -/
def zChunkLen (dEnd pos : Nat) : Nat :=
  if pos + CHUNKSIZE < dEnd then CHUNKSIZE else dEnd - pos

/-- zlibExtractFile's inflate loop.  Each iteration reads the next input
chunk, returns 0 with the reader's bad flag set when the underlying stream
reports a read error (archive.bad()), folds the chunk into the running
CRC-32, and feeds it to inflate: Z_NEED_DICT, Z_DATA_ERROR and Z_MEM_ERROR
return 0 and assign false to the reader's bad flag (as the source does);
Z_STREAM_END leaves the loop, after which a CRC mismatch (when validation is
requested) returns 0 and otherwise the entry's original size is returned,
the destination buffer holding the inflated output.  The fuel bounds the
iteration count; dataEnd + 1 iterations cover every terminating run. -/
def zlibLoop (Z : ZlibModel) (entryCrc origSize : Nat) (validateCrc : Bool) (dEnd : Nat) :
    Nat → List Nat → Nat → IStream → Bool → ExtractResult
  | 0, _, _, s, bad => ⟨0, bad, [], s⟩
  | fuel + 1, consumed, crc, s, bad =>
    let n := zChunkLen dEnd s.pos
    let rd := s.readN n
    if rd.2.badFlag then ⟨0, true, [], rd.2⟩
    else
      let crc1 := crc32z crc rd.1
      let consumed1 := consumed ++ rd.1
      match Z.inflateRc consumed1 with
      | InflateRc.needDict => ⟨0, false, [], rd.2⟩
      | InflateRc.dataError => ⟨0, false, [], rd.2⟩
      | InflateRc.memError => ⟨0, false, [], rd.2⟩
      | InflateRc.streamEnd =>
          if validateCrc ∧ ¬ crc1 = entryCrc then ⟨0, bad, Z.inflateOut consumed1, rd.2⟩
          else ⟨origSize, bad, Z.inflateOut consumed1, rd.2⟩
      | InflateRc.ok => zlibLoop Z entryCrc origSize validateCrc dEnd fuel consumed1 crc1 rd.2 bad

/-- DatArchiveReader::zlibExtractFile: seek to the data start and run the
inflate loop over the on-disk byte range. -/
def zlibExtractFile (Z : ZlibModel) (e : TableEntry) (validateCrc : Bool)
    (s : IStream) (bad : Bool) : ExtractResult :=
  zlibLoop Z e.crc32 e.originalSize validateCrc e.dataEnd (e.dataEnd + 1) [] 0
    (s.seekg e.dataStart) bad

/-- DatArchiveReader::getFileFromEntry: dispatch on the compression method
byte; a method byte other than NONE or ZLIB falls through the switch and
returns 0. -/
def getFileFromEntry (Z : ZlibModel) (e : TableEntry) (validateCrc : Bool)
    (s : IStream) (bad : Bool) : ExtractResult :=
  if e.compressionMethod = cmNONE then
    let r := extractFile e validateCrc s
    ⟨r.1, bad, r.2.1, r.2.2⟩
  else if e.compressionMethod = cmZLIB then
    zlibExtractFile Z e validateCrc s bad
  else ⟨0, bad, [], s⟩

/-- The destination std::vector of getFile: constructed with originalSize
zero-initialized elements; the extraction fills it through a raw pointer, so
the returned vector holds the first originalSize extracted bytes padded with
the untouched zeros. -/
def fitTo (n : Nat) (l : List Nat) : List Nat :=
  l.take n ++ List.replicate (n - l.length) 0

/-- DatArchiveReader::getFile: empty when the archive is not open or bad or
the name is absent; otherwise extract (with CRC validation, the default) and
return the buffer when the extraction reports a nonzero size, empty
otherwise. -/
def DatArchiveReader.getFile (Z : ZlibModel) (r : DatArchiveReader) (name : List Nat) :
    List Nat × DatArchiveReader :=
  if ¬ r.openFlag ∨ r.badFlag then ([], r)
  else if ¬ r.contains name then ([], r)
  else
    let e := (mapLookup r.entries name).getD default
    let res := getFileFromEntry Z e true r.archive r.badFlag
    let r' := { r with archive := res.stream, badFlag := res.badFlag }
    if ¬ res.ret = 0 then (fitTo e.originalSize res.buffer, r') else ([], r')

/-- DatArchiveReader::getFileRaw: like getFile but into a caller buffer,
returning the size (0 on failure). -/
def DatArchiveReader.getFileRaw (Z : ZlibModel) (r : DatArchiveReader) (name : List Nat) :
    Nat × DatArchiveReader :=
  if ¬ r.openFlag ∨ r.badFlag then (0, r)
  else if ¬ r.contains name then (0, r)
  else
    let e := (mapLookup r.entries name).getD default
    let res := getFileFromEntry Z e true r.archive r.badFlag
    (res.ret, { r with archive := res.stream, badFlag := res.badFlag })

/-- DatArchiveReader::getFileEntry returns a reference to the table entry;
on an open, non-bad reader it calls std::map::at, which raises
std::out_of_range when the name is absent — modelled as an error result.
(The early return of a reference to a value-initialized temporary when the
archive is not open or bad is modelled as a default entry.) -/
def DatArchiveReader.getFileEntry (r : DatArchiveReader) (name : List Nat) :
    Except Unit TableEntry :=
  if ¬ r.openFlag ∨ r.badFlag then Except.ok default
  else
    match mapLookup r.entries name with
    | some e => Except.ok e
    | none => Except.error ()

/-!  ######################  Archive Writer  ###################### -/

/-- The writer's pending-insertion queue: std::map from source path to
TableEntry, in its iteration (key) order.  Paths are abstracted as natural
numbers; the filesystem is a map from path to file contents. -/
structure DatArchiveWriter where
  fileEntries : List (Nat × TableEntry) := []
deriving DecidableEq, Repr

/-- DatArchiveWriter::writeHeader: four signature bytes, the version byte,
and an eight-byte zero placeholder for the table offset. -/
def writeHeader (s : OStream) : OStream :=
  ((s.write DATFILESIGNATURE).write [DATFILEVERSION]).write (List.replicate 8 0)

/-- The on-disk payload of one queued file: the raw content for NONE, the
deflate stream for ZLIB; a method byte outside the enum falls through the
switch in writeFiles and nothing is written. -/
def onDisk (Z : ZlibModel) (method : Nat) (content : List Nat) : List Nat :=
  if method = cmNONE then content
  else if method = cmZLIB then Z.compress content
  else []

/-- Write one queued file's payload (the body of writeFiles' loop once the
source opened): record dataStart and originalSize, stream the payload while
accumulating the CRC, record dataEnd.
For NONE (writeFileToArchive) the source is copied chunk by chunk and the
CRC (seeded with crc32(0, Z_NULL, 0) = 0) accumulates over the bytes
written; for ZLIB (zlibCompressFileToArchive) each deflate output chunk is
written and folded into entry.crc32 starting from the entry's incoming crc32
field, which the function never resets.  Chunkwise accumulation equals the
whole-payload CRC (theorem crc32z_foldl_flatten below), so the model stores
the whole-payload value. -/
def writeOne (Z : ZlibModel) (content : List Nat) (e : TableEntry) (s : OStream) :
    TableEntry × OStream :=
  let e1 := { e with dataStart := s.pos, originalSize := content.length }
  if e.compressionMethod = cmNONE then
    let s' := s.write content
    ({ e1 with crc32 := crc32z 0 content, dataEnd := s'.pos }, s')
  else if e.compressionMethod = cmZLIB then
    let out := Z.compress content
    let s' := s.write out
    ({ e1 with crc32 := crc32z e.crc32 out, dataEnd := s'.pos }, s')
  else
    ({ e1 with dataEnd := s.pos }, s)

/-- DatArchiveWriter::writeFiles: process the queue in order, skipping (and
leaving untouched) entries whose source file cannot be opened; the entries
in the queue are updated in place. -/
def writeFilesGo (Z : ZlibModel) (fs : Nat → Option (List Nat)) :
    List (Nat × TableEntry) → OStream → List (Nat × TableEntry) × OStream
  | [], s => ([], s)
  | (p, e) :: rest, s =>
    match fs p with
    | none =>
      let r := writeFilesGo Z fs rest s
      ((p, e) :: r.1, r.2)
    | some content =>
      let we := writeOne Z content e s
      let r := writeFilesGo Z fs rest we.2
      ((p, we.1) :: r.1, r.2)

/-- DatArchiveWriter::writeTableEntry: name length as two bytes (a uint16,
so a longer name's length is truncated), the name bytes (nameSize of them),
the method byte, the flags byte, and the crc32 / originalSize / dataStart /
dataEnd fields as raw little-endian machine integers. -/
def encodeEntry (e : TableEntry) : List Nat :=
  leBytes 2 e.name.length ++ e.name.take (e.name.length % 65536) ++
    [e.compressionMethod % 256] ++ [e.fileFlags.toByte] ++
    leBytes 4 e.crc32 ++ leBytes 8 e.originalSize ++
    leBytes 8 e.dataStart ++ leBytes 8 e.dataEnd

/-- The byte image of a table: the records in list order. -/
def encodeList : List TableEntry → List Nat
  | [] => []
  | e :: es => encodeEntry e ++ encodeList es

/-- DatArchiveWriter::writeTable(stream, entries). -/
def writeTableList (s : OStream) (es : List TableEntry) : OStream :=
  s.write (encodeList es)

/-- DatArchiveWriter::writeTableLocation: note the current position as the
table offset, patch it into the 8-byte header field at offset 5, and seek
back to the table position. -/
def writeTableLocation (s : OStream) : OStream :=
  let tOff := s.pos
  ((s.seekp 5).write (leBytes 8 tOff)).seekp tOff

/-- DatArchiveWriter::removeFile: erase a queued path, reporting whether a
pairing was removed. -/
def DatArchiveWriter.removeFile (w : DatArchiveWriter) (p : Nat) :
    Bool × DatArchiveWriter :=
  (w.fileEntries.any (fun pe => pe.1 = p),
    ⟨w.fileEntries.filter (fun pe => ¬ pe.1 = p)⟩)

/-- DatArchiveWriter::clear. -/
def DatArchiveWriter.clear (_ : DatArchiveWriter) : DatArchiveWriter := ⟨[]⟩

/-- std::map insert position for the writer's path-keyed queue. -/
def queueInsert (m : List (Nat × TableEntry)) (p : Nat) (e : TableEntry) :
    List (Nat × TableEntry) :=
  match m with
  | [] => [(p, e)]
  | (p', e') :: rest =>
    if p < p' then (p, e) :: (p', e') :: rest
    else if p = p' then (p', e') :: rest
    else (p', e') :: queueInsert rest p e

/-- DatArchiveWriter::queueFile: reject a path that is already queued or
does not exist, otherwise emplace the pairing. -/
def DatArchiveWriter.queueFile (fs : Nat → Option (List Nat)) (w : DatArchiveWriter)
    (p : Nat) (e : TableEntry) : Bool × DatArchiveWriter :=
  if w.fileEntries.any (fun pe => pe.1 = p) then (false, w)
  else if (fs p).isNone then (false, w)
  else (true, ⟨queueInsert w.fileEntries p e⟩)

/-- The body shared by writeArchive once the destination stream is open:
header, payloads, table-offset patch, then the table from the (updated)
queue.  Returns the file bytes and the updated queue. -/
def buildFresh (Z : ZlibModel) (fs : Nat → Option (List Nat))
    (q : List (Nat × TableEntry)) : List Nat × List (Nat × TableEntry) :=
  let s1 := writeHeader ⟨[], 0⟩
  let wf := writeFilesGo Z fs q s1
  let s3 := writeTableLocation wf.2
  let s4 := writeTableList s3 (wf.1.map (fun pe => pe.2))
  (s4.data, wf.1)

/-- DatArchiveWriter::writeArchive: fail when the destination exists and
overwrite is not allowed; when it exists and overwrite is requested the
writer calls its own removeFile(destination) — which operates on the
pending-insertion queue, not the filesystem — then opens a fresh stream and
writes header, payloads, table location and table.  Returns the boolean
result, the bytes written to the destination (none when nothing was
written), and the writer state after the call. -/
def DatArchiveWriter.writeArchive (Z : ZlibModel) (fs : Nat → Option (List Nat))
    (w : DatArchiveWriter) (destination : Nat) (overwrite : Bool) :
    Bool × Option (List Nat) × DatArchiveWriter :=
  if (fs destination).isSome then
    if overwrite then
      let w1 := (w.removeFile destination).2
      let b := buildFresh Z fs w1.fileEntries
      (true, some b.1, ⟨b.2⟩)
    else (false, none, w)
  else
    let b := buildFresh Z fs w.fileEntries
    (true, some b.1, ⟨b.2⟩)

/-- std::sort by dataStart ascending (appendArchive line 540); modelled by
insertion sort, which agrees with any sort on the distinct-dataStart lists
the theorems consider. -/
def sortByDataStart (l : List TableEntry) : List TableEntry :=
  l.insertionSort (fun a b => a.dataStart ≤ b.dataStart)

/-- DatArchiveWriter::appendArchive: fail when the destination does not
exist; open it with the Reader and fail when that reader is bad or not
open; recover the table offset and table, sort the entries by dataStart,
drop every queued file whose entry name collides with an existing entry,
reopen the file for read-and-write, seek to the old table offset, write the
remaining queued payloads over the old table, patch the header's table
offset, and write the old (sorted) records followed by the new ones.
Returns the boolean result, the resulting file bytes, and the writer. -/
def DatArchiveWriter.appendArchive (Z : ZlibModel) (fs : Nat → Option (List Nat))
    (w : DatArchiveWriter) (destinationArchive : Nat) :
    Bool × Option (List Nat) × DatArchiveWriter :=
  match fs destinationArchive with
  | none => (false, none, w)
  | some oldBytes =>
    let rd := openArchive (some oldBytes)
    if rd.1.badFlag ∨ ¬ rd.1.openFlag then (false, none, w)
    else
      let tOff := rd.1.tableOffset
      let sorted := sortByDataStart rd.1.getTable
      let q1 := w.fileEntries.filter
        (fun pe => ¬ sorted.any (fun e => e.name = pe.2.name))
      let s0 : OStream := ⟨oldBytes, tOff⟩
      let wf := writeFilesGo Z fs q1 s0
      let s2 := writeTableLocation wf.2
      let s3 := writeTableList s2 sorted
      let s4 := writeTableList s3 (wf.1.map (fun pe => pe.2))
      (true, some s4.data, ⟨wf.1⟩)

/-!  ######################  Stream and byte lemmas  ###################### -/

theorem readN_data (s : IStream) (n : Nat) : (s.readN n).2.data = s.data := by
  unfold IStream.readN
  split <;> rfl

theorem readN_badFlag (s : IStream) (n : Nat) : (s.readN n).2.badFlag = s.badFlag := by
  unfold IStream.readN
  split <;> rfl

theorem readN_pos_le (s : IStream) (n : Nat) (h : s.pos ≤ s.data.length) :
    (s.readN n).2.pos ≤ s.data.length := by
  unfold IStream.readN
  split
  · exact h
  · simp only []
    omega

theorem readN_pos_ge (s : IStream) (n : Nat) : s.pos ≤ (s.readN n).2.pos := by
  unfold IStream.readN
  split
  · exact Nat.le_refl _
  · simp only []
    omega

theorem readN_exact (s : IStream) (n : Nat) (hf : s.failFlag = false)
    (h : s.pos + n ≤ s.data.length) :
    s.readN n = ((s.data.drop s.pos).take n,
      { s with pos := s.pos + n, failFlag := false }) := by
  have hmin : min n (s.data.length - s.pos) = n := by omega
  simp [IStream.readN, hf, hmin]

theorem readN_atEnd (s : IStream) (n : Nat) (hf : s.failFlag = false)
    (h : s.data.length ≤ s.pos) (hn : 0 < n) :
    (s.readN n).2.failFlag = true := by
  have hmin : min n (s.data.length - s.pos) = 0 := by omega
  simp [IStream.readN, hf, hmin, hn]

theorem writeAt_append (l d : List Nat) : writeAt l l.length d = l ++ d := by
  have hd : l.length + d.length ≥ l.length := Nat.le_add_right _ _
  simp [writeAt, List.drop_eq_nil_of_le hd]

theorem writeAt_length (l : List Nat) (p : Nat) (d : List Nat) (h : p ≤ l.length) :
    (writeAt l p d).length = max l.length (p + d.length) := by
  simp [writeAt]
  omega

theorem writeAt_writeAt (l : List Nat) (p : Nat) (a b : List Nat) (h : p ≤ l.length) :
    writeAt (writeAt l p a) (p + a.length) b = writeAt l p (a ++ b) := by
  have h1 : p - l.length = 0 := Nat.sub_eq_zero_of_le h
  have hta : (l.take p ++ a).length = p + a.length := by
    simp
    omega
  unfold writeAt
  rw [h1]
  simp only [List.replicate_zero, List.nil_append, List.append_nil]
  have e1 : ((l.take p ++ a) ++ l.drop (p + a.length)).take (p + a.length) =
      l.take p ++ a :=
    List.take_left' hta
  have e2 : p + a.length - ((l.take p ++ a) ++ l.drop (p + a.length)).length = 0 := by
    simp
    omega
  have e3 : ((l.take p ++ a) ++ l.drop (p + a.length)).drop (p + a.length + b.length) =
      l.drop (p + (a ++ b).length) := by
    rw [← List.drop_drop b.length (p + a.length)]
    rw [List.drop_left' hta, List.drop_drop]
    congr 1
    simp
    omega
  rw [e1, e2, e3]
  simp [List.append_assoc]

theorem leBytes_length (w : Nat) : ∀ v, (leBytes w v).length = w := by
  induction w with
  | zero => intro v; rfl
  | succ w ih => intro v; simp [leBytes, ih]

theorem decodeLE_leBytes (w : Nat) : ∀ v, decodeLE (leBytes w v) = v % 256 ^ w := by
  induction w with
  | zero => intro v; simp [leBytes, decodeLE, Nat.mod_one]
  | succ w ih =>
    intro v
    simp only [leBytes, decodeLE, ih]
    have h256 : (256 : Nat) ^ (w + 1) = 256 * 256 ^ w := by ring
    rw [h256, Nat.mod_mul]

theorem decodeLE_leBytes_eq (w v : Nat) (h : v < 256 ^ w) :
    decodeLE (leBytes w v) = v := by
  rw [decodeLE_leBytes, Nat.mod_eq_of_lt h]

/-!  ######################  CRC-32 lemmas  ###################### -/

theorem crc32z_append (c : Nat) (a b : List Nat) :
    crc32z c (a ++ b) = crc32z (crc32z c a) b := by
  unfold crc32z
  rw [List.foldl_append]
  congr 1
  rw [Nat.xor_assoc, Nat.xor_self, Nat.xor_zero]

theorem crc32z_nil (c : Nat) : crc32z c [] = c := by
  unfold crc32z
  simp [List.foldl]
  rw [Nat.xor_assoc, Nat.xor_self, Nat.xor_zero]

/-- Chunkwise CRC accumulation equals the CRC of the concatenation: the
fidelity argument for modelling the source's chunk loops (reader and writer)
by whole-payload CRC values. -/
theorem crc32z_foldl_flatten (chunks : List (List Nat)) :
    ∀ c, chunks.foldl crc32z c = crc32z c chunks.flatten := by
  induction chunks with
  | nil => intro c; simp [List.foldl, crc32z_nil]
  | cons ch rest ih =>
    intro c
    simp only [List.foldl, List.flatten]
    rw [ih, crc32z_append]

theorem crcRound_lt (c : Nat) (h : c < 2 ^ 32) : crcRound c < 2 ^ 32 := by
  unfold crcRound
  split
  · exact Nat.xor_lt_two_pow (by omega) (by norm_num)
  · omega

theorem crcByte_lt (c b : Nat) (h : c < 2 ^ 32) : crcByte c b < 2 ^ 32 := by
  unfold crcByte
  have h0 : c ^^^ b % 256 < 2 ^ 32 := Nat.xor_lt_two_pow h (by
    have : b % 256 < 256 := Nat.mod_lt _ (by norm_num)
    omega)
  exact crcRound_lt _ (crcRound_lt _ (crcRound_lt _ (crcRound_lt _ (crcRound_lt _
    (crcRound_lt _ (crcRound_lt _ (crcRound_lt _ h0)))))))

theorem foldl_crcByte_lt (l : List Nat) : ∀ c, c < 2 ^ 32 → l.foldl crcByte c < 2 ^ 32 := by
  induction l with
  | nil => intro c h; exact h
  | cons b rest ih => intro c h; exact ih _ (crcByte_lt c b h)

theorem crc32z_lt (c : Nat) (l : List Nat) (h : c < 2 ^ 32) : crc32z c l < 2 ^ 32 := by
  unfold crc32z
  exact Nat.xor_lt_two_pow
    (foldl_crcByte_lt l _ (Nat.xor_lt_two_pow h (by norm_num))) (by norm_num)

/-!  ######################  Index (std::map) lemmas  ###################### -/

theorem mapLookup_emplace_self (k : List Nat) (v : TableEntry) :
    ∀ m, mapLookup m k = none → mapLookup (mapEmplace m k v) k = some v := by
  intro m
  induction m with
  | nil => intro _; simp [mapEmplace, mapLookup]
  | cons kv rest ih =>
    intro h
    obtain ⟨k', v'⟩ := kv
    by_cases hk : k = k'
    · simp [mapLookup, hk] at h
    · simp only [mapLookup, if_neg hk] at h
      unfold mapEmplace
      split
      · simp [mapLookup]
      · simp [mapLookup, hk, ih h]

theorem mapLookup_emplace_other (k k' : List Nat) (v : TableEntry) (hk : ¬ k' = k) :
    ∀ m, mapLookup (mapEmplace m k v) k' = mapLookup m k' := by
  intro m
  induction m with
  | nil => simp [mapEmplace, mapLookup, hk]
  | cons kv rest ih =>
    obtain ⟨k0, v0⟩ := kv
    unfold mapEmplace
    split
    · simp [mapLookup, hk]
    · split
      · rfl
      · by_cases h0 : k' = k0 <;> simp [mapLookup, h0, ih]

theorem mapEmplace_perm (k : List Nat) (v : TableEntry) :
    ∀ m, mapLookup m k = none → (mapEmplace m k v).Perm ((k, v) :: m) := by
  intro m
  induction m with
  | nil => intro _; simp [mapEmplace]
  | cons kv rest ih =>
    intro h
    obtain ⟨k', v'⟩ := kv
    by_cases hk : k = k'
    · simp [mapLookup, hk] at h
    · simp only [mapLookup, if_neg hk] at h
      unfold mapEmplace
      split
      · exact List.Perm.refl _
      · exact ((ih h).cons (k', v')).trans (List.Perm.swap _ _ _)

/-!  ######################  Claim C3  ###################### -/

/-- Claim C3: the claim states that a double close fails while closing an
open archive succeeds and releases the handle.  The code does the opposite:
closeArchive returns false and leaves the reader untouched whenever the
archive is open, and reports success when the archive is already closed —
the open check on its first line is inverted. -/
theorem claim3_close_inverted (r : DatArchiveReader) :
    (r.openFlag = true → r.closeArchive = (false, r)) ∧
    (r.openFlag = false → (r.closeArchive).1 = true) := by
  constructor <;> intro h <;> simp [DatArchiveReader.closeArchive, h]

/-- Witness for claim C3: a concretely open reader is refused by
closeArchive, and a closed reader's close call reports success. -/
theorem claim3_close_inverted_witness :
    DatArchiveReader.closeArchive ⟨⟨[], 0, false, false⟩, 1, 13, [], true, false⟩ =
      (false, ⟨⟨[], 0, false, false⟩, 1, 13, [], true, false⟩) ∧
    (DatArchiveReader.closeArchive ⟨⟨[], 0, false, false⟩, 1, 13, [], false, false⟩).1 = true :=
  ⟨(claim3_close_inverted _).1 rfl, (claim3_close_inverted _).2 rfl⟩

/-!  ######################  Claim C8  ###################### -/

/-- Claim C8: at any point of zlibExtractFile's inflate loop, an inflate
return code of Z_NEED_DICT, Z_DATA_ERROR or Z_MEM_ERROR makes the call
return 0 and assigns false to the reader's bad flag — even when the flag was
true before, so isBad() afterwards reports false; only a read failure on the
archive stream itself (archive.bad()) sets the flag to true.  Stated for an
arbitrary loop state (consumed input, running CRC, stream position, incoming
flag value) and instantiated at the first chunk of zlibExtractFile. -/
theorem claim8_inflate_error_clears_bad (Z : ZlibModel) (eCrc oSz : Nat) (v : Bool)
    (dEnd fuel : Nat) (consumed : List Nat) (crc : Nat) (s : IStream) (bad : Bool)
    (e : TableEntry) :
    (s.badFlag = false →
      (Z.inflateRc (consumed ++ (s.readN (zChunkLen dEnd s.pos)).1) = InflateRc.needDict ∨
       Z.inflateRc (consumed ++ (s.readN (zChunkLen dEnd s.pos)).1) = InflateRc.dataError ∨
       Z.inflateRc (consumed ++ (s.readN (zChunkLen dEnd s.pos)).1) = InflateRc.memError) →
      zlibLoop Z eCrc oSz v dEnd (fuel + 1) consumed crc s bad =
        ⟨0, false, [], (s.readN (zChunkLen dEnd s.pos)).2⟩ ∧
      ∀ r : DatArchiveReader,
        ({ r with badFlag :=
            (zlibLoop Z eCrc oSz v dEnd (fuel + 1) consumed crc s bad).badFlag
          : DatArchiveReader }).isBad = false) ∧
    (s.badFlag = true →
      zlibLoop Z eCrc oSz v dEnd (fuel + 1) consumed crc s bad =
        ⟨0, true, [], (s.readN (zChunkLen dEnd s.pos)).2⟩) ∧
    (s.badFlag = false → s.failFlag = false →
      Z.inflateRc ((s.seekg e.dataStart).readN (zChunkLen e.dataEnd e.dataStart)).1 =
        InflateRc.dataError →
      (zlibExtractFile Z e v s bad).ret = 0 ∧
      (zlibExtractFile Z e v s bad).badFlag = false) := by
  refine ⟨fun hb herr => ?_, fun hb => ?_, fun hb hf herr => ?_⟩
  · have hbad : (s.readN (zChunkLen dEnd s.pos)).2.badFlag = false := by
      rw [readN_badFlag]; exact hb
    constructor
    · simp only [zlibLoop, hbad, Bool.false_eq_true, if_false]
      rcases herr with h | h | h <;> rw [h]
    · intro r
      simp only [zlibLoop, hbad, Bool.false_eq_true, if_false]
      rcases herr with h | h | h <;> rw [h] <;> rfl
  · have hbad : (s.readN (zChunkLen dEnd s.pos)).2.badFlag = true := by
      rw [readN_badFlag]; exact hb
    simp only [zlibLoop, hbad, if_true]
  · have hseek : s.seekg e.dataStart = { s with pos := e.dataStart } := by
      simp [IStream.seekg, hf]
    rw [hseek] at herr
    have hp : ({ s with pos := e.dataStart } : IStream).pos = e.dataStart := rfl
    have hrdbad : (({ s with pos := e.dataStart } : IStream).readN
        (zChunkLen e.dataEnd e.dataStart)).2.badFlag = false := by
      rw [readN_badFlag]; exact hb
    unfold zlibExtractFile
    rw [hseek]
    simp only [zlibLoop, hp, hrdbad, Bool.false_eq_true, if_false, List.nil_append]
    rw [herr]
    exact ⟨rfl, rfl⟩

/-- Witness for claim C8: a concrete engine that reports Z_DATA_ERROR on the
first chunk clears a previously-set bad flag and returns 0. -/
theorem claim8_inflate_error_clears_bad_witness :
    zlibLoop ⟨fun c => 0 :: c, fun _ => InflateRc.dataError, fun p => p.drop 1⟩
        7 5 true 4 5 [] 0 ⟨[9, 9, 9, 9], 0, false, false⟩ true =
      ⟨0, false, [], ⟨[9, 9, 9, 9], 4, false, false⟩⟩ :=
  by
  have h := (claim8_inflate_error_clears_bad
    ⟨fun c => 0 :: c, fun _ => InflateRc.dataError, fun p => p.drop 1⟩
    7 5 true 4 4 [] 0 ⟨[9, 9, 9, 9], 0, false, false⟩ true default).1 rfl
    (Or.inr (Or.inl rfl))
  have h2 := h.1
  rw [h2]
  have : (IStream.readN ⟨[9, 9, 9, 9], 0, false, false⟩
      (zChunkLen 4 (IStream.pos ⟨[9, 9, 9, 9], 0, false, false⟩))).2 =
      ⟨[9, 9, 9, 9], 4, false, false⟩ := by decide
  rw [this]

/-!  ######################  Claim C9  ###################### -/

theorem writeFilesGo_keys (Z : ZlibModel) (fs : Nat → Option (List Nat)) :
    ∀ (q : List (Nat × TableEntry)) (s : OStream),
      ((writeFilesGo Z fs q s).1.map (fun pe => pe.1)) = q.map (fun pe => pe.1) := by
  intro q
  induction q with
  | nil => intro s; rfl
  | cons pe rest ih =>
    intro s
    obtain ⟨p, e⟩ := pe
    unfold writeFilesGo
    cases fs p <;> simp [ih]

/-- Claim C9: writeArchive with overwrite permission on an existing
destination calls the writer's own removeFile(destination), which erases a
queue pairing rather than touching the filesystem: the archive that gets
written is built from the queue with the destination's pairing filtered out,
the destination path is gone from the writer's queue afterwards, and every
other queued path survives. -/
theorem claim9_overwrite_filters_queue (Z : ZlibModel) (fs : Nat → Option (List Nat))
    (w : DatArchiveWriter) (destination : Nat) (h : (fs destination).isSome) :
    w.writeArchive Z fs destination true =
      (true,
        some (buildFresh Z fs (w.fileEntries.filter (fun pe => ¬ pe.1 = destination))).1,
        ⟨(buildFresh Z fs (w.fileEntries.filter (fun pe => ¬ pe.1 = destination))).2⟩) ∧
    (w.removeFile destination).2.fileEntries =
      w.fileEntries.filter (fun pe => ¬ pe.1 = destination) ∧
    ¬ destination ∈ ((w.writeArchive Z fs destination true).2.2.fileEntries.map
        (fun pe => pe.1)) ∧
    ∀ pe ∈ w.fileEntries, ¬ pe.1 = destination →
      pe.1 ∈ ((w.writeArchive Z fs destination true).2.2.fileEntries.map
        (fun pe => pe.1)) := by
  have harch : w.writeArchive Z fs destination true =
      (true,
        some (buildFresh Z fs (w.fileEntries.filter (fun pe => ¬ pe.1 = destination))).1,
        ⟨(buildFresh Z fs (w.fileEntries.filter (fun pe => ¬ pe.1 = destination))).2⟩) := by
    simp [DatArchiveWriter.writeArchive, h, DatArchiveWriter.removeFile]
  refine ⟨harch, rfl, ?_, ?_⟩
  · rw [harch]
    simp only [buildFresh]
    rw [writeFilesGo_keys]
    simp
  · intro pe hmem hne
    rw [harch]
    simp only [buildFresh]
    rw [writeFilesGo_keys]
    simp only [List.mem_map]
    exact ⟨pe, List.mem_filter.2 ⟨hmem, by simp [hne]⟩, rfl⟩

/-- Witness for claim C9: a writer with the destination itself queued plus
one other file; after writeArchive with overwrite the destination path is no
longer among the queued pairings. -/
theorem claim9_overwrite_filters_queue_witness :
    ¬ (7 : Nat) ∈ ((DatArchiveWriter.writeArchive
        ⟨fun c => 0 :: c, fun _ => InflateRc.ok, fun p => p.drop 1⟩
        (fun p => if p = 3 then some [1] else if p = 7 then some [2] else none)
        ⟨[(3, {name := [65]}), (7, {name := [66]})]⟩ 7 true).2.2.fileEntries.map
          (fun pe => pe.1)) :=
  (claim9_overwrite_filters_queue
    ⟨fun c => 0 :: c, fun _ => InflateRc.ok, fun p => p.drop 1⟩
    (fun p => if p = 3 then some [1] else if p = 7 then some [2] else none)
    ⟨[(3, {name := [65]}), (7, {name := [66]})]⟩ 7 rfl).2.2.1

/-!  ######################  Header parsing lemmas  ###################### -/

theorem seg_extract (A B C : List Nat) (a n : Nat) (ha : a = A.length) (hn : n = B.length) :
    ((A ++ (B ++ C)).drop a).take n = B := by
  subst ha hn
  rw [List.drop_left' rfl, List.take_left' rfl]

/-- Opening a file whose first 13 bytes are a valid header reduces to
loadTable on the stream positioned after the header. -/
theorem openArchive_valid (t : Nat) (body : List Nat) (ht : t < 2 ^ 64) :
    openArchive (some (DATFILESIGNATURE ++ [DATFILEVERSION] ++ leBytes 8 t ++ body)) =
      (⟨(loadTable t ⟨DATFILESIGNATURE ++ [DATFILEVERSION] ++ leBytes 8 t ++ body,
            13, false, false⟩).2.1,
        DATFILEVERSION, t,
        (loadTable t ⟨DATFILESIGNATURE ++ [DATFILEVERSION] ++ leBytes 8 t ++ body,
            13, false, false⟩).2.2,
        true, false⟩,
       (loadTable t ⟨DATFILESIGNATURE ++ [DATFILEVERSION] ++ leBytes 8 t ++ body,
            13, false, false⟩).1) := by
  have hassoc : DATFILESIGNATURE ++ [DATFILEVERSION] ++ leBytes 8 t ++ body =
      DATFILESIGNATURE ++ ([DATFILEVERSION] ++ (leBytes 8 t ++ body)) := by
    simp [List.append_assoc]
  have hlen : (DATFILESIGNATURE ++ [DATFILEVERSION] ++ leBytes 8 t ++ body).length =
      13 + body.length := by
    simp [DATFILESIGNATURE, leBytes_length]
    omega
  have h1 : (⟨DATFILESIGNATURE ++ [DATFILEVERSION] ++ leBytes 8 t ++ body, 0, false,
      false⟩ : IStream).readN 4 =
      (DATFILESIGNATURE,
        ⟨DATFILESIGNATURE ++ [DATFILEVERSION] ++ leBytes 8 t ++ body, 4, false, false⟩) := by
    rw [readN_exact _ _ rfl (by dsimp only; rw [hlen]; omega)]
    rw [List.drop_zero]
    congr 1
  have h2 : (⟨DATFILESIGNATURE ++ [DATFILEVERSION] ++ leBytes 8 t ++ body, 4, false,
      false⟩ : IStream).readN 1 =
      ([DATFILEVERSION],
        ⟨DATFILESIGNATURE ++ [DATFILEVERSION] ++ leBytes 8 t ++ body, 5, false, false⟩) := by
    rw [readN_exact _ _ rfl (by dsimp only; rw [hlen]; omega)]
    congr 1
  have h3 : (⟨DATFILESIGNATURE ++ [DATFILEVERSION] ++ leBytes 8 t ++ body, 5, false,
      false⟩ : IStream).readN 8 =
      (leBytes 8 t,
        ⟨DATFILESIGNATURE ++ [DATFILEVERSION] ++ leBytes 8 t ++ body, 13, false, false⟩) := by
    rw [readN_exact _ _ rfl (by dsimp only; rw [hlen]; omega)]
    congr 1
  have hdec : decodeLE (leBytes 8 t) = t :=
    decodeLE_leBytes_eq 8 t (by norm_num at ht ⊢; omega)
  have hver : decodeLE [DATFILEVERSION] = DATFILEVERSION := by
    simp [decodeLE, DATFILEVERSION]
  have hval : validateArchive DATFILESIGNATURE DATFILEVERSION = true := by
    simp [validateArchive]
  simp only [openArchive]
  rw [h1]
  dsimp only
  rw [h2]
  dsimp only
  rw [hver, hval]
  simp only [not_true_eq_false, Bool.true_eq_false, if_false, ite_false]
  rw [h3]
  dsimp only
  rw [hdec]

/-!  ######################  Claim C4  ###################### -/

/-- Counterexample to claim C4: a file with a valid header whose table
offset field is zero opens with an empty index, but isBad() afterwards
reports false, not true as the claim states (openArchive returns false and
never sets the bad flag on a table-load failure). -/
theorem claim4_counterexample :
    (openArchive (some [0xB1, 0x44, 0x41, 0x54, 0x01, 0, 0, 0, 0, 0, 0, 0, 0])).2 = false ∧
    (openArchive (some [0xB1, 0x44, 0x41, 0x54, 0x01, 0, 0, 0, 0, 0, 0, 0, 0])).1.entries
      = [] ∧
    (openArchive (some [0xB1, 0x44, 0x41, 0x54, 0x01, 0, 0, 0, 0, 0, 0, 0, 0])).1.isBad
      = false := by
  refine ⟨?_, ?_, ?_⟩ <;> decide

/-- Claim C4 as amended: for every archive whose header validates but whose
table offset is zero, openArchive returns false and leaves the reader with
an empty index, the open flag set, and the bad flag still false (the code
never sets it on a table-load failure); every value-returning query then
behaves as not-found: size 0, contains false, empty file list, empty
getFile, zero getFileRaw. -/
theorem claim4_zero_table_offset (rest : List Nat) (f : List Nat) (Z : ZlibModel)
    (name : List Nat)
    (hf : f = DATFILESIGNATURE ++ [DATFILEVERSION] ++ leBytes 8 0 ++ rest) :
    (openArchive (some f)).2 = false ∧
    (openArchive (some f)).1.entries = [] ∧
    (openArchive (some f)).1.isBad = false ∧
    (openArchive (some f)).1.isOpen = true ∧
    (openArchive (some f)).1.size = 0 ∧
    (openArchive (some f)).1.contains name = false ∧
    (openArchive (some f)).1.listFiles = [] ∧
    DatArchiveReader.getFile Z (openArchive (some f)).1 name = ([], (openArchive (some f)).1) ∧
    DatArchiveReader.getFileRaw Z (openArchive (some f)).1 name =
      (0, (openArchive (some f)).1) := by
  subst hf
  rw [openArchive_valid 0 rest (by norm_num)]
  have hload : loadTable 0 ⟨DATFILESIGNATURE ++ [DATFILEVERSION] ++ leBytes 8 0 ++ rest,
      13, false, false⟩ =
      (false, ⟨DATFILESIGNATURE ++ [DATFILEVERSION] ++ leBytes 8 0 ++ rest, 0, false,
        false⟩, []) := by
    simp [loadTable, IStream.seekg]
  rw [hload]
  refine ⟨rfl, rfl, rfl, rfl, rfl, ?_, rfl, ?_, ?_⟩
  · simp [DatArchiveReader.contains, mapLookup]
  · simp [DatArchiveReader.getFile, DatArchiveReader.contains, mapLookup]
  · simp [DatArchiveReader.getFileRaw, DatArchiveReader.contains, mapLookup]

/-- Witness for the amended claim C4 at the concrete 13-byte archive. -/
theorem claim4_zero_table_offset_witness :
    (openArchive (some [0xB1, 0x44, 0x41, 0x54, 0x01, 0, 0, 0, 0, 0, 0, 0, 0])).1.isBad
        = false ∧
    (openArchive (some [0xB1, 0x44, 0x41, 0x54, 0x01, 0, 0, 0, 0, 0, 0, 0, 0])).1.size
        = 0 ∧
    DatArchiveReader.getFile ⟨fun c => 0 :: c, fun _ => InflateRc.ok, fun p => p.drop 1⟩
        (openArchive (some [0xB1, 0x44, 0x41, 0x54, 0x01, 0, 0, 0, 0, 0, 0, 0, 0])).1
        [65] =
      ([], (openArchive (some [0xB1, 0x44, 0x41, 0x54, 0x01, 0, 0, 0, 0, 0, 0, 0, 0])).1) := by
  have h := claim4_zero_table_offset []
    [0xB1, 0x44, 0x41, 0x54, 0x01, 0, 0, 0, 0, 0, 0, 0, 0]
    ⟨fun c => 0 :: c, fun _ => InflateRc.ok, fun p => p.drop 1⟩ [65] (by decide)
  exact ⟨h.2.2.1, h.2.2.2.2.1, h.2.2.2.2.2.2.2.1⟩

/-!  ######################  Claim C5  ###################### -/

/-- Counterexample to claim C5: on an open, non-bad reader with an empty
index, getFileEntry raises (std::map::at throws std::out_of_range for an
absent key), so not every operation reports failure without an exception. -/
theorem claim5_counterexample :
    DatArchiveReader.getFileEntry ⟨⟨[], 0, false, false⟩, 1, 13, [], true, false⟩ [65] =
      Except.error () := by
  rfl

/-- Claim C5 as amended: getFile and getFileRaw signal an absent name
through their return values (empty buffer, zero size) with the reader
unchanged, but getFileEntry on an open, non-bad reader raises
std::out_of_range for an absent name instead of reporting failure through a
return value; the bad/open flags gate all three operations. -/
theorem claim5_getFileEntry_throws (r : DatArchiveReader) (name : List Nat) (Z : ZlibModel)
    (hopen : r.openFlag = true) (hbad : r.badFlag = false)
    (habsent : mapLookup r.entries name = none) :
    r.getFileEntry name = Except.error () ∧
    r.getFile Z name = ([], r) ∧
    r.getFileRaw Z name = (0, r) := by
  refine ⟨?_, ?_, ?_⟩
  · simp [DatArchiveReader.getFileEntry, hopen, hbad, habsent]
  · simp [DatArchiveReader.getFile, DatArchiveReader.contains, hopen, hbad, habsent]
  · simp [DatArchiveReader.getFileRaw, DatArchiveReader.contains, hopen, hbad, habsent]

/-- Witness for the amended claim C5. -/
theorem claim5_getFileEntry_throws_witness :
    DatArchiveReader.getFileEntry ⟨⟨[], 0, false, false⟩, 1, 13,
        [([66], {name := [66]})], true, false⟩ [65] = Except.error () ∧
    DatArchiveReader.getFile ⟨fun c => 0 :: c, fun _ => InflateRc.ok, fun p => p.drop 1⟩
        ⟨⟨[], 0, false, false⟩, 1, 13, [([66], {name := [66]})], true, false⟩ [65] =
      ([], ⟨⟨[], 0, false, false⟩, 1, 13, [([66], {name := [66]})], true, false⟩) := by
  have h := claim5_getFileEntry_throws
    ⟨⟨[], 0, false, false⟩, 1, 13, [([66], {name := [66]})], true, false⟩ [65]
    ⟨fun c => 0 :: c, fun _ => InflateRc.ok, fun p => p.drop 1⟩ rfl rfl (by decide)
  exact ⟨h.1, h.2.1⟩

/-!  ######################  Table record round-trip  ###################### -/

/-- Field bounds under which a table record encodes and decodes exactly:
what the fixed-width machine integers of the C++ struct guarantee on the
reference platform (and, for the name length, what fits the uint16 length
prefix). -/
def wfEntry (e : TableEntry) : Prop :=
  e.name.length < 65536 ∧ e.compressionMethod < 256 ∧ e.crc32 < 2 ^ 32 ∧
  e.originalSize < 2 ^ 64 ∧ e.dataStart < 2 ^ 64 ∧ e.dataEnd < 2 ^ 64

instance (e : TableEntry) : Decidable (wfEntry e) := by
  unfold wfEntry
  infer_instance

theorem readN_offset (d : List Nat) (p n : Nat) (seg : List Nat) (bad : Bool)
    (hseg : seg = (d.drop p).take n) (hlen : p + n ≤ d.length) :
    (⟨d, p, false, bad⟩ : IStream).readN n = (seg, ⟨d, p + n, false, bad⟩) := by
  subst hseg
  rw [readN_exact _ _ rfl hlen]

theorem readN_fail (s : IStream) (n : Nat) (h : s.failFlag = true) :
    s.readN n = (List.replicate n 0, s) := by
  simp [IStream.readN, h]

theorem readN_ok_facts (s : IStream) (n : Nat) (h : (s.readN n).2.failFlag = false) :
    s.failFlag = false ∧ (s.readN n).2.pos = s.pos + n ∧ n ≤ s.data.length - s.pos := by
  by_cases hf : s.failFlag
  · rw [readN_fail s n hf] at h
    exact absurd h (by simp [hf])
  · have hf' : s.failFlag = false := by simp [hf]
    unfold IStream.readN at h
    simp only [hf', Bool.false_eq_true, if_false] at h
    simp only [decide_eq_false_iff_not, Nat.not_lt] at h
    have hk : min n (s.data.length - s.pos) = n := by omega
    refine ⟨hf', ?_, by omega⟩
    unfold IStream.readN
    simp only [hf', Bool.false_eq_true, if_false, hk]

/-- Parsing one record's fields from an unfailed stream with enough data:
every field is the corresponding byte segment. -/
theorem parseFields_spec (d : List Nat) (p : Nat) (bad : Bool) (nameLength : Nat)
    (h : p + nameLength + 30 ≤ d.length) :
    parseFields nameLength ⟨d, p, false, bad⟩ =
      (⟨(d.drop p).take nameLength,
        decodeLE ((d.drop (p + nameLength)).take 1),
        Flags.ofByte (decodeLE ((d.drop (p + nameLength + 1)).take 1)),
        decodeLE ((d.drop (p + nameLength + 2)).take 4),
        decodeLE ((d.drop (p + nameLength + 6)).take 8),
        decodeLE ((d.drop (p + nameLength + 14)).take 8),
        decodeLE ((d.drop (p + nameLength + 22)).take 8)⟩,
       ⟨d, p + nameLength + 30, false, bad⟩) := by
  have e2 : p + nameLength + 1 + 1 = p + nameLength + 2 := by omega
  have e3 : p + nameLength + 2 + 4 = p + nameLength + 6 := by omega
  have e4 : p + nameLength + 6 + 8 = p + nameLength + 14 := by omega
  have e5 : p + nameLength + 14 + 8 = p + nameLength + 22 := by omega
  unfold parseFields
  rw [readN_offset d p nameLength _ bad rfl (by omega)]
  dsimp only
  rw [readN_offset d (p + nameLength) 1 _ bad rfl (by omega)]
  dsimp only
  rw [readN_offset d (p + nameLength + 1) 1 _ bad rfl (by omega)]
  dsimp only
  rw [e2, readN_offset d (p + nameLength + 2) 4 _ bad rfl (by omega)]
  dsimp only
  rw [e3, readN_offset d (p + nameLength + 6) 8 _ bad rfl (by omega)]
  dsimp only
  rw [e4, readN_offset d (p + nameLength + 14) 8 _ bad rfl (by omega)]
  dsimp only
  rw [e5, readN_offset d (p + nameLength + 22) 8 _ bad rfl (by omega)]

theorem decodeLE_replicate_zero (n : Nat) : decodeLE (List.replicate n 0) = 0 := by
  induction n with
  | zero => rfl
  | succ n ih => simp [List.replicate, decodeLE, ih]

/-- Parsing a record's fields when the stream is already at end of data:
all reads fail, leaving every field at its zero default and the name at
nameLength zero bytes. -/
theorem parseFields_empty (d : List Nat) (p : Nat) (bad : Bool) (nameLength : Nat)
    (hp : d.length ≤ p) (hn : 0 < nameLength) :
    parseFields nameLength ⟨d, p, false, bad⟩ =
      (⟨List.replicate nameLength 0, 0, ⟨false⟩, 0, 0, 0, 0⟩, ⟨d, p, true, bad⟩) := by
  have h1 : (⟨d, p, false, bad⟩ : IStream).readN nameLength =
      (List.replicate nameLength 0, ⟨d, p, true, bad⟩) := by
    unfold IStream.readN
    have hmin : min nameLength (d.length - p) = 0 := by omega
    simp [hmin, hn]
  unfold parseFields
  rw [h1]
  dsimp only
  rw [readN_fail _ _ rfl, readN_fail _ _ rfl, readN_fail _ _ rfl, readN_fail _ _ rfl,
    readN_fail _ _ rfl, readN_fail _ _ rfl]
  dsimp only
  simp [decodeLE_replicate_zero, Flags.ofByte]
  decide

theorem parseFields_data (nameLength : Nat) (s : IStream) :
    (parseFields nameLength s).2.data = s.data := by
  simp [parseFields, readN_data]

theorem parseFields_badFlag (nameLength : Nat) (s : IStream) :
    (parseFields nameLength s).2.badFlag = s.badFlag := by
  simp [parseFields, readN_badFlag]

/-- If a record's fields parse without a stream failure, the stream had
enough data for the whole record and advanced past it. -/
theorem parseFields_ok_facts (nameLength : Nat) (s : IStream)
    (h : (parseFields nameLength s).2.failFlag = false) :
    s.failFlag = false ∧ (parseFields nameLength s).2.pos = s.pos + nameLength + 30 ∧
      s.pos + nameLength + 30 ≤ s.data.length := by
  unfold parseFields at h ⊢
  dsimp only at h ⊢
  have f7 := readN_ok_facts _ _ h
  have f6 := readN_ok_facts _ _ f7.1
  have f5 := readN_ok_facts _ _ f6.1
  have f4 := readN_ok_facts _ _ f5.1
  have f3 := readN_ok_facts _ _ f4.1
  have f2 := readN_ok_facts _ _ f3.1
  have f1 := readN_ok_facts _ _ f2.1
  have d1 : (s.readN nameLength).2.data.length = s.data.length := by rw [readN_data]
  have d2 : ((s.readN nameLength).2.readN 1).2.data.length =
      (s.readN nameLength).2.data.length := by rw [readN_data]
  have d3 : (((s.readN nameLength).2.readN 1).2.readN 1).2.data.length =
      ((s.readN nameLength).2.readN 1).2.data.length := by rw [readN_data]
  have d4 : ((((s.readN nameLength).2.readN 1).2.readN 1).2.readN 4).2.data.length =
      (((s.readN nameLength).2.readN 1).2.readN 1).2.data.length := by rw [readN_data]
  have d5 : (((((s.readN nameLength).2.readN 1).2.readN 1).2.readN 4).2.readN 8).2.data.length =
      ((((s.readN nameLength).2.readN 1).2.readN 1).2.readN 4).2.data.length := by
    rw [readN_data]
  have d6 : ((((((s.readN nameLength).2.readN 1).2.readN 1).2.readN 4).2.readN
      8).2.readN 8).2.data.length =
      (((((s.readN nameLength).2.readN 1).2.readN 1).2.readN 4).2.readN 8).2.data.length := by
    rw [readN_data]
  refine ⟨f1.1, ?_, ?_⟩ <;> omega

theorem encodeEntry_length (e : TableEntry) (hn : e.name.length < 65536) :
    (encodeEntry e).length = e.name.length + 32 := by
  simp [encodeEntry, leBytes_length, Nat.mod_eq_of_lt hn]
  omega

theorem encodeEntry_flat (e : TableEntry) (hn : e.name.length < 65536) :
    encodeEntry e = leBytes 2 e.name.length ++ (e.name ++ ([e.compressionMethod % 256] ++
      ([e.fileFlags.toByte] ++ (leBytes 4 e.crc32 ++ (leBytes 8 e.originalSize ++
        (leBytes 8 e.dataStart ++ leBytes 8 e.dataEnd)))))) := by
  simp [encodeEntry, Nat.mod_eq_of_lt hn, List.take_length, List.append_assoc]

theorem drop_step (d : List Nat) (p n : Nat) (A B : List Nat) (h : d.drop p = A ++ B)
    (hA : A.length = n) : d.drop (p + n) = B := by
  rw [← List.drop_drop n p d, h, List.drop_left' hA]

theorem Flags.ofByte_toByte (f : Flags) : Flags.ofByte f.toByte = f := by
  obtain ⟨enc⟩ := f
  cases enc <;> decide

/-- One iteration of loadTable's loop over a well-formed encoded record:
the record is parsed back exactly, emplaced under its name, and the loop
continues after the record. -/
theorem parseLoop_step (fuel : Nat) (e : TableEntry) (hwf : wfEntry e)
    (pre tail : List Nat) (bad : Bool) (acc : List (List Nat × TableEntry)) :
    parseLoop (fuel + 1) ⟨pre ++ (encodeEntry e ++ tail), pre.length, false, bad⟩ acc =
      parseLoop fuel ⟨pre ++ (encodeEntry e ++ tail),
        pre.length + (encodeEntry e).length, false, bad⟩ (mapEmplace acc e.name e) := by
  obtain ⟨hn, hcm, hcrc, hos, hds, hde⟩ := hwf
  have hrl : (encodeEntry e).length = e.name.length + 32 := encodeEntry_length e hn
  have hdlen : (pre ++ (encodeEntry e ++ tail)).length =
      pre.length + (e.name.length + 32) + tail.length := by
    simp [hrl]
    omega
  have hflat : pre ++ (encodeEntry e ++ tail) =
      pre ++ (leBytes 2 e.name.length ++ (e.name ++ ([e.compressionMethod % 256] ++
        ([e.fileFlags.toByte] ++ (leBytes 4 e.crc32 ++ (leBytes 8 e.originalSize ++
          (leBytes 8 e.dataStart ++ (leBytes 8 e.dataEnd ++ tail)))))))) := by
    rw [encodeEntry_flat e hn]
    simp [List.append_assoc]
  have hS0 : (pre ++ (encodeEntry e ++ tail)).drop pre.length =
      leBytes 2 e.name.length ++ (e.name ++ ([e.compressionMethod % 256] ++
        ([e.fileFlags.toByte] ++ (leBytes 4 e.crc32 ++ (leBytes 8 e.originalSize ++
          (leBytes 8 e.dataStart ++ (leBytes 8 e.dataEnd ++ tail))))))) := by
    rw [hflat]
    exact List.drop_left' rfl
  have hS1 : (pre ++ (encodeEntry e ++ tail)).drop (pre.length + 2) =
      e.name ++ ([e.compressionMethod % 256] ++ ([e.fileFlags.toByte] ++
        (leBytes 4 e.crc32 ++ (leBytes 8 e.originalSize ++
          (leBytes 8 e.dataStart ++ (leBytes 8 e.dataEnd ++ tail)))))) :=
    drop_step _ _ _ _ _ hS0 (leBytes_length 2 _)
  have hS2 : (pre ++ (encodeEntry e ++ tail)).drop (pre.length + 2 + e.name.length) =
      [e.compressionMethod % 256] ++ ([e.fileFlags.toByte] ++
        (leBytes 4 e.crc32 ++ (leBytes 8 e.originalSize ++
          (leBytes 8 e.dataStart ++ (leBytes 8 e.dataEnd ++ tail))))) :=
    drop_step _ _ _ _ _ hS1 rfl
  have hS3 : (pre ++ (encodeEntry e ++ tail)).drop (pre.length + 2 + e.name.length + 1) =
      [e.fileFlags.toByte] ++ (leBytes 4 e.crc32 ++ (leBytes 8 e.originalSize ++
        (leBytes 8 e.dataStart ++ (leBytes 8 e.dataEnd ++ tail)))) :=
    drop_step _ _ _ _ _ hS2 rfl
  have hS4 : (pre ++ (encodeEntry e ++ tail)).drop (pre.length + 2 + e.name.length + 2) =
      leBytes 4 e.crc32 ++ (leBytes 8 e.originalSize ++
        (leBytes 8 e.dataStart ++ (leBytes 8 e.dataEnd ++ tail))) := by
    have := drop_step _ (pre.length + 2 + e.name.length + 1) 1 _ _ hS3 rfl
    rw [show pre.length + 2 + e.name.length + 1 + 1 = pre.length + 2 + e.name.length + 2
      from by omega] at this
    exact this
  have hS5 : (pre ++ (encodeEntry e ++ tail)).drop (pre.length + 2 + e.name.length + 6) =
      leBytes 8 e.originalSize ++ (leBytes 8 e.dataStart ++ (leBytes 8 e.dataEnd ++ tail)) := by
    have := drop_step _ (pre.length + 2 + e.name.length + 2) 4 _ _ hS4 (leBytes_length 4 _)
    rw [show pre.length + 2 + e.name.length + 2 + 4 = pre.length + 2 + e.name.length + 6
      from by omega] at this
    exact this
  have hS6 : (pre ++ (encodeEntry e ++ tail)).drop (pre.length + 2 + e.name.length + 14) =
      leBytes 8 e.dataStart ++ (leBytes 8 e.dataEnd ++ tail) := by
    have := drop_step _ (pre.length + 2 + e.name.length + 6) 8 _ _ hS5 (leBytes_length 8 _)
    rw [show pre.length + 2 + e.name.length + 6 + 8 = pre.length + 2 + e.name.length + 14
      from by omega] at this
    exact this
  have hS7 : (pre ++ (encodeEntry e ++ tail)).drop (pre.length + 2 + e.name.length + 22) =
      leBytes 8 e.dataEnd ++ tail := by
    have := drop_step _ (pre.length + 2 + e.name.length + 14) 8 _ _ hS6 (leBytes_length 8 _)
    rw [show pre.length + 2 + e.name.length + 14 + 8 = pre.length + 2 + e.name.length + 22
      from by omega] at this
    exact this
  have hg : leBytes 2 e.name.length =
      ((pre ++ (encodeEntry e ++ tail)).drop pre.length).take 2 := by
    rw [hS0, List.take_left' (leBytes_length 2 _)]
  have f1 : ((pre ++ (encodeEntry e ++ tail)).drop (pre.length + 2)).take e.name.length =
      e.name := by
    rw [hS1, List.take_left' rfl]
  have f2 : ((pre ++ (encodeEntry e ++ tail)).drop
      (pre.length + 2 + e.name.length)).take 1 = [e.compressionMethod % 256] := by
    rw [hS2]
    simp
  have f3 : ((pre ++ (encodeEntry e ++ tail)).drop
      (pre.length + 2 + e.name.length + 1)).take 1 = [e.fileFlags.toByte] := by
    rw [hS3]
    simp
  have f4 : ((pre ++ (encodeEntry e ++ tail)).drop
      (pre.length + 2 + e.name.length + 2)).take 4 = leBytes 4 e.crc32 := by
    rw [hS4, List.take_left' (leBytes_length 4 _)]
  have f5 : ((pre ++ (encodeEntry e ++ tail)).drop
      (pre.length + 2 + e.name.length + 6)).take 8 = leBytes 8 e.originalSize := by
    rw [hS5, List.take_left' (leBytes_length 8 _)]
  have f6 : ((pre ++ (encodeEntry e ++ tail)).drop
      (pre.length + 2 + e.name.length + 14)).take 8 = leBytes 8 e.dataStart := by
    rw [hS6, List.take_left' (leBytes_length 8 _)]
  have f7 : ((pre ++ (encodeEntry e ++ tail)).drop
      (pre.length + 2 + e.name.length + 22)).take 8 = leBytes 8 e.dataEnd := by
    rw [hS7, List.take_left' (leBytes_length 8 _)]
  simp only [parseLoop]
  rw [readN_offset _ pre.length 2 _ bad hg (by omega)]
  dsimp only
  simp only [Bool.false_eq_true, if_false]
  rw [decodeLE_leBytes_eq 2 e.name.length (by norm_num; omega)]
  rw [parseFields_spec _ (pre.length + 2) bad e.name.length (by omega)]
  dsimp only
  rw [f1, f2, f3, f4, f5, f6, f7]
  rw [decodeLE_leBytes_eq 4 e.crc32 (by norm_num at hcrc ⊢; omega),
    decodeLE_leBytes_eq 8 e.originalSize (by norm_num at hos ⊢; omega),
    decodeLE_leBytes_eq 8 e.dataStart (by norm_num at hds ⊢; omega),
    decodeLE_leBytes_eq 8 e.dataEnd (by norm_num at hde ⊢; omega)]
  have hone : decodeLE [e.compressionMethod % 256] = e.compressionMethod := by
    simp [decodeLE, Nat.mod_eq_of_lt hcm]
  have hflb : decodeLE [e.fileFlags.toByte] = e.fileFlags.toByte := by
    simp [decodeLE]
  rw [hone, hflb, Flags.ofByte_toByte]
  rw [show pre.length + 2 + e.name.length + 30 = pre.length + (encodeEntry e).length
    from by omega]

/-- Emplacing a list of entries into the index in order. -/
def emplaceAll : List (List Nat × TableEntry) → List TableEntry →
    List (List Nat × TableEntry)
  | acc, [] => acc
  | acc, e :: es => emplaceAll (mapEmplace acc e.name e) es

/-- loadTable's loop over a sequence of well-formed encoded records parses
and emplaces them all. -/
theorem parseLoop_encodeList (es : List TableEntry) (hwf : ∀ e ∈ es, wfEntry e) :
    ∀ (pre tail : List Nat) (bad : Bool) (acc : List (List Nat × TableEntry)) (fuel : Nat),
    parseLoop (fuel + es.length) ⟨pre ++ (encodeList es ++ tail), pre.length, false,
      bad⟩ acc =
      parseLoop fuel ⟨pre ++ (encodeList es ++ tail),
        pre.length + (encodeList es).length, false, bad⟩ (emplaceAll acc es) := by
  induction es with
  | nil =>
    intro pre tail bad acc fuel
    simp [encodeList, emplaceAll]
  | cons e es ih =>
    intro pre tail bad acc fuel
    have hshape : pre ++ (encodeList (e :: es) ++ tail) =
        pre ++ (encodeEntry e ++ (encodeList es ++ tail)) := by
      simp [encodeList, List.append_assoc]
    have hlen1 : (encodeList (e :: es)).length =
        (encodeEntry e).length + (encodeList es).length := by
      simp [encodeList]
    rw [hshape, hlen1]
    rw [show fuel + (e :: es).length = (fuel + es.length) + 1 from by
      simp [List.length_cons]; omega]
    rw [parseLoop_step (fuel + es.length) e (hwf e (by simp)) pre
      (encodeList es ++ tail) bad acc]
    have hshape2 : pre ++ (encodeEntry e ++ (encodeList es ++ tail)) =
        (pre ++ encodeEntry e) ++ (encodeList es ++ tail) := by
      simp [List.append_assoc]
    have hpos : pre.length + (encodeEntry e).length = (pre ++ encodeEntry e).length := by
      simp
    rw [hshape2, hpos]
    rw [ih (fun x hx => hwf x (by simp [hx])) (pre ++ encodeEntry e) tail bad
      (mapEmplace acc e.name e) fuel]
    have hback : (pre ++ encodeEntry e) ++ (encodeList es ++ tail) =
        pre ++ (encodeEntry e ++ (encodeList es ++ tail)) := by
      simp [List.append_assoc]
    rw [hback]
    have hpos2 : (pre ++ encodeEntry e).length + (encodeList es).length =
        pre.length + ((encodeEntry e).length + (encodeList es).length) := by
      simp
      omega
    rw [hpos2]
    rfl

/-- loadTable's loop exits when fewer than two bytes remain: the guard read
fails and the accumulated index is returned. -/
theorem parseLoop_exit (fuel : Nat) (d : List Nat) (p : Nat) (bad : Bool)
    (acc : List (List Nat × TableEntry)) (h : d.length ≤ p + 1) :
    parseLoop (fuel + 1) ⟨d, p, false, bad⟩ acc =
      (acc, ⟨d, p + min 2 (d.length - p), true, bad⟩) := by
  have hk : min 2 (d.length - p) < 2 := by omega
  simp only [parseLoop, IStream.readN, Bool.false_eq_true, if_false]
  simp [hk]

/-- loadTable's loop on an already-failed stream exits immediately. -/
theorem parseLoop_failed (fuel : Nat) (d : List Nat) (p : Nat) (bad : Bool)
    (acc : List (List Nat × TableEntry)) :
    parseLoop (fuel + 1) ⟨d, p, true, bad⟩ acc = (acc, ⟨d, p, true, bad⟩) := by
  simp [parseLoop, readN_fail]

theorem parseLoop_truncated (fuel : Nat) (d : List Nat) (p : Nat) (bad : Bool)
    (acc : List (List Nat × TableEntry)) (h2 : p + 2 ≤ d.length)
    (hshort : d.length < p + 2 + decodeLE ((d.drop p).take 2) + 30) :
    parseLoop (fuel + 2) ⟨d, p, false, bad⟩ acc =
      (mapEmplace acc
        (parseFields (decodeLE ((d.drop p).take 2)) ⟨d, p + 2, false, bad⟩).1.name
        (parseFields (decodeLE ((d.drop p).take 2)) ⟨d, p + 2, false, bad⟩).1,
       (parseFields (decodeLE ((d.drop p).take 2)) ⟨d, p + 2, false, bad⟩).2) := by
  have hfail : (parseFields (decodeLE ((d.drop p).take 2))
      ⟨d, p + 2, false, bad⟩).2.failFlag = true := by
    by_contra hc
    have hc' : (parseFields (decodeLE ((d.drop p).take 2))
        ⟨d, p + 2, false, bad⟩).2.failFlag = false := by
      revert hc
      cases (parseFields (decodeLE ((d.drop p).take 2))
        ⟨d, p + 2, false, bad⟩).2.failFlag <;> simp
    have hoc := parseFields_ok_facts _ _ hc'
    have := hoc.2.2
    dsimp only at this
    omega
  have hdata : (parseFields (decodeLE ((d.drop p).take 2))
      ⟨d, p + 2, false, bad⟩).2.data = d := by
    rw [parseFields_data]
  have hbadp : (parseFields (decodeLE ((d.drop p).take 2))
      ⟨d, p + 2, false, bad⟩).2.badFlag = bad := by
    rw [parseFields_badFlag]
  have hstream : (parseFields (decodeLE ((d.drop p).take 2)) ⟨d, p + 2, false, bad⟩).2 =
      ⟨d, (parseFields (decodeLE ((d.drop p).take 2)) ⟨d, p + 2, false, bad⟩).2.pos,
        true, bad⟩ := by
    have heta : (parseFields (decodeLE ((d.drop p).take 2)) ⟨d, p + 2, false, bad⟩).2 =
        ⟨(parseFields (decodeLE ((d.drop p).take 2)) ⟨d, p + 2, false, bad⟩).2.data,
         (parseFields (decodeLE ((d.drop p).take 2)) ⟨d, p + 2, false, bad⟩).2.pos,
         (parseFields (decodeLE ((d.drop p).take 2)) ⟨d, p + 2, false, bad⟩).2.failFlag,
         (parseFields (decodeLE ((d.drop p).take 2)) ⟨d, p + 2, false, bad⟩).2.badFlag⟩ :=
      rfl
    rw [hdata, hbadp, hfail] at heta
    exact heta
  have hg := readN_offset d p 2 ((d.drop p).take 2) bad rfl h2
  rw [show fuel + 2 = (fuel + 1) + 1 from rfl]
  rw [parseLoop]
  rw [hg]
  dsimp only
  simp only [Bool.false_eq_true, if_false]
  rw [hstream, parseLoop_failed fuel d _ bad _, ← hstream]

theorem encodeEntry_length_pos (e : TableEntry) : 0 < (encodeEntry e).length := by
  simp [encodeEntry, leBytes_length]

theorem encodeList_length_ge (es : List TableEntry) :
    es.length ≤ (encodeList es).length := by
  induction es with
  | nil => simp [encodeList]
  | cons e es ih =>
    have := encodeEntry_length_pos e
    simp only [encodeList, List.length_append, List.length_cons]
    omega

theorem loadTable_spec (d : List Nat) (p0 : Nat) (bad : Bool) (t : Nat) (ht : ¬ t = 0) :
    loadTable t ⟨d, p0, false, bad⟩ =
      (true, ((parseLoop (d.length + 1) ⟨d, t, false, bad⟩ []).2.clear).seekg 0,
       (parseLoop (d.length + 1) ⟨d, t, false, bad⟩ []).1) := by
  unfold loadTable
  simp [IStream.seekg, ht]

/-- loadTable on a stream holding a prefix followed by a well-formed encoded
table starting at the table offset loads exactly those entries. -/
theorem loadTable_encodeList (pre : List Nat) (es : List TableEntry)
    (hwf : ∀ e ∈ es, wfEntry e) (bad : Bool) (t : Nat) (ht : t = pre.length)
    (hne : ¬ t = 0) (p0 : Nat) :
    loadTable t ⟨pre ++ encodeList es, p0, false, bad⟩ =
      (true, ⟨pre ++ encodeList es, 0, false, bad⟩, emplaceAll [] es) := by
  subst ht
  rw [loadTable_spec _ p0 bad _ hne]
  have hgelen := encodeList_length_ge es
  have hshape0 : pre ++ encodeList es = pre ++ (encodeList es ++ []) := by simp
  rw [hshape0]
  have hfuel : (pre ++ (encodeList es ++ [])).length + 1 =
      (((pre ++ (encodeList es ++ [])).length - es.length) + 1) + es.length := by
    simp
    omega
  rw [hfuel]
  rw [parseLoop_encodeList es hwf]
  rw [parseLoop_exit _ _ _ bad _ (by simp)]
  have hmin : min 2 ((pre ++ (encodeList es ++ [])).length -
      (pre.length + (encodeList es).length)) = 0 := by
    simp
  simp [hmin, IStream.clear, IStream.seekg]

/-!  ######################  Claim C10  ###################### -/

/-- Claim C10: when the table byte region ends partway through an entry
record — the two-byte name-length prefix readable but the rest of the
record truncated by end-of-file — loadTable still parses the truncated
trailing record (reads that run off the end leave the remaining fields at
their zero defaults), inserts it into the name-keyed index, and returns
true instead of rejecting it.  The fourth conjunct exhibits the default
values for the case where nothing beyond the length prefix is readable. -/
theorem claim10_truncated_trailing_record (es : List TableEntry)
    (hwf : ∀ e ∈ es, wfEntry e) (pre frag : List Nat) (p0 : Nat) (bad : Bool)
    (hne : ¬ pre.length = 0) (hfrag2 : 2 ≤ frag.length)
    (hshort : frag.length < 2 + decodeLE (frag.take 2) + 30) :
    (loadTable pre.length ⟨pre ++ (encodeList es ++ frag), p0, false, bad⟩).1 = true ∧
    (loadTable pre.length ⟨pre ++ (encodeList es ++ frag), p0, false, bad⟩).2.2 =
      mapEmplace (emplaceAll [] es)
        (parseFields (decodeLE (frag.take 2)) ⟨pre ++ (encodeList es ++ frag),
          pre.length + (encodeList es).length + 2, false, bad⟩).1.name
        (parseFields (decodeLE (frag.take 2)) ⟨pre ++ (encodeList es ++ frag),
          pre.length + (encodeList es).length + 2, false, bad⟩).1 ∧
    (mapLookup (emplaceAll [] es)
        (parseFields (decodeLE (frag.take 2)) ⟨pre ++ (encodeList es ++ frag),
          pre.length + (encodeList es).length + 2, false, bad⟩).1.name = none →
      mapLookup
        (loadTable pre.length ⟨pre ++ (encodeList es ++ frag), p0, false, bad⟩).2.2
        (parseFields (decodeLE (frag.take 2)) ⟨pre ++ (encodeList es ++ frag),
          pre.length + (encodeList es).length + 2, false, bad⟩).1.name =
      some (parseFields (decodeLE (frag.take 2)) ⟨pre ++ (encodeList es ++ frag),
          pre.length + (encodeList es).length + 2, false, bad⟩).1) ∧
    (frag.length = 2 → 0 < decodeLE (frag.take 2) →
      (parseFields (decodeLE (frag.take 2)) ⟨pre ++ (encodeList es ++ frag),
        pre.length + (encodeList es).length + 2, false, bad⟩).1 =
      ⟨List.replicate (decodeLE (frag.take 2)) 0, 0, ⟨false⟩, 0, 0, 0, 0⟩) := by
  have hdlen : (pre ++ (encodeList es ++ frag)).length =
      pre.length + ((encodeList es).length + frag.length) := by
    simp
  have hgelen := encodeList_length_ge es
  have hprepos : 1 ≤ pre.length := by omega
  have hdropP : (pre ++ (encodeList es ++ frag)).drop
      (pre.length + (encodeList es).length) = frag := by
    have h0 : (pre ++ (encodeList es ++ frag)).drop pre.length =
        encodeList es ++ frag := List.drop_left' rfl
    exact drop_step _ _ _ _ _ h0 rfl
  rw [loadTable_spec _ p0 bad _ hne]
  have hfuel : (pre ++ (encodeList es ++ frag)).length + 1 =
      ((((pre ++ (encodeList es ++ frag)).length - es.length - 1) + 2) + es.length) := by
    omega
  rw [hfuel, parseLoop_encodeList es hwf]
  rw [parseLoop_truncated _ _ _ bad _ (by omega) (by rw [hdropP]; omega)]
  rw [hdropP]
  refine ⟨rfl, rfl, fun h => mapLookup_emplace_self _ _ _ h, fun h2c hpos => ?_⟩
  have hpe := parseFields_empty (pre ++ (encodeList es ++ frag))
    (pre.length + (encodeList es).length + 2) bad (decodeLE (frag.take 2))
    (by omega) hpos
  rw [hpe]

/-- Witness for claim C10: a one-byte prefix followed by a lone truncated
record consisting only of the two length bytes 5, 0; the loop inserts an
entry named with five zero bytes whose other fields hold their defaults
and reports success. -/
theorem claim10_truncated_trailing_record_witness :
    (loadTable 1 ⟨[9] ++ (encodeList [] ++ [5, 0]), 0, false, false⟩).1 = true ∧
    mapLookup (loadTable 1 ⟨[9] ++ (encodeList [] ++ [5, 0]), 0, false, false⟩).2.2
        (List.replicate 5 0) =
      some ⟨List.replicate 5 0, 0, ⟨false⟩, 0, 0, 0, 0⟩ := by
  have h := claim10_truncated_trailing_record [] (by simp) [9] [5, 0] 0 false
    (by decide) (by decide) (by decide)
  have hpe := h.2.2.2 (by decide) (by decide)
  refine ⟨h.1, ?_⟩
  have h3 := h.2.2.1 (by decide)
  rw [hpe] at h3
  exact h3

/-!  ######################  Writer closed form  ###################### -/

/-- The table entry as updated in place by writeFiles for a source of the
given content written starting at the given position. -/
def updatedEntry (Z : ZlibModel) (content : List Nat) (e : TableEntry) (start : Nat) :
    TableEntry :=
  if e.compressionMethod = cmNONE then
    { e with
      dataStart := start,
      originalSize := content.length,
      crc32 := crc32z 0 content,
      dataEnd := start + content.length }
  else if e.compressionMethod = cmZLIB then
    { e with
      dataStart := start,
      originalSize := content.length,
      crc32 := crc32z e.crc32 (Z.compress content),
      dataEnd := start + (Z.compress content).length }
  else
    { e with dataStart := start, originalSize := content.length, dataEnd := start }

/-- The queue as updated by writeFiles when payloads start at the given
position (skipped sources leave their entry untouched). -/
def processQueue (Z : ZlibModel) (fs : Nat → Option (List Nat)) :
    List (Nat × TableEntry) → Nat → List (Nat × TableEntry)
  | [], _ => []
  | (p, e) :: rest, start =>
    match fs p with
    | none => (p, e) :: processQueue Z fs rest start
    | some c =>
      (p, updatedEntry Z c e start) ::
        processQueue Z fs rest (start + (onDisk Z e.compressionMethod c).length)

/-- The concatenated on-disk payloads of the queue. -/
def payloadBytes (Z : ZlibModel) (fs : Nat → Option (List Nat)) :
    List (Nat × TableEntry) → List Nat
  | [] => []
  | (p, e) :: rest =>
    (match fs p with | none => [] | some c => onDisk Z e.compressionMethod c) ++
      payloadBytes Z fs rest

theorem writeAt_nil (l : List Nat) (p : Nat) (h : p ≤ l.length) : writeAt l p [] = l := by
  simp [writeAt, Nat.sub_eq_zero_of_le h]

theorem writeOne_spec (Z : ZlibModel) (content : List Nat) (e : TableEntry) (s : OStream)
    (h : s.pos ≤ s.data.length) :
    writeOne Z content e s =
      (updatedEntry Z content e s.pos,
       ⟨writeAt s.data s.pos (onDisk Z e.compressionMethod content),
        s.pos + (onDisk Z e.compressionMethod content).length⟩) := by
  unfold writeOne updatedEntry onDisk OStream.write
  split_ifs
  · rfl
  · rfl
  · rw [show writeAt s.data s.pos [] = s.data from writeAt_nil _ _ h]
    rfl

theorem writeFilesGo_spec (Z : ZlibModel) (fs : Nat → Option (List Nat)) :
    ∀ (q : List (Nat × TableEntry)) (s : OStream), s.pos ≤ s.data.length →
      writeFilesGo Z fs q s =
        (processQueue Z fs q s.pos,
         ⟨writeAt s.data s.pos (payloadBytes Z fs q),
          s.pos + (payloadBytes Z fs q).length⟩) := by
  intro q
  induction q with
  | nil =>
    intro s h
    simp [writeFilesGo, processQueue, payloadBytes, writeAt_nil _ _ h]
  | cons pe rest ih =>
    intro s h
    obtain ⟨p, e⟩ := pe
    cases hfs : fs p with
    | none =>
      simp only [writeFilesGo, processQueue, payloadBytes, hfs]
      rw [ih s h]
      simp
    | some c =>
      simp only [writeFilesGo, processQueue, payloadBytes, hfs]
      rw [writeOne_spec Z c e s h]
      dsimp only
      have h1 : s.pos + (onDisk Z e.compressionMethod c).length ≤
          (writeAt s.data s.pos (onDisk Z e.compressionMethod c)).length := by
        rw [writeAt_length _ _ _ h]
        omega
      rw [ih ⟨writeAt s.data s.pos (onDisk Z e.compressionMethod c),
        s.pos + (onDisk Z e.compressionMethod c).length⟩ h1]
      dsimp only
      rw [writeAt_writeAt _ _ _ _ h]
      simp [Nat.add_assoc]

theorem writeHeader_empty :
    writeHeader ⟨[], 0⟩ =
      ⟨DATFILESIGNATURE ++ ([DATFILEVERSION] ++ List.replicate 8 0), 13⟩ := by
  rfl

theorem writeAt_patch (X Y Z' d : List Nat) (p : Nat) (hY : Y.length = d.length)
    (hp : p = X.length) : writeAt (X ++ (Y ++ Z')) p d = X ++ (d ++ Z') := by
  subst hp
  unfold writeAt
  rw [List.take_left' rfl]
  have h0 : X.length - (X ++ (Y ++ Z')).length = 0 := by simp
  rw [h0]
  have h1 : (X ++ (Y ++ Z')).drop (X.length + d.length) = Z' := by
    have hsh : X ++ (Y ++ Z') = (X ++ Y) ++ Z' := by simp
    rw [hsh]
    exact List.drop_left' (by simp [hY])
  rw [h1]
  simp

/-- The file writeArchive produces, in the header-offset-payload-table
layout the reader consumes. -/
theorem buildFresh_spec (Z : ZlibModel) (fs : Nat → Option (List Nat))
    (q : List (Nat × TableEntry)) :
    buildFresh Z fs q =
      (DATFILESIGNATURE ++ [DATFILEVERSION] ++
        leBytes 8 (13 + (payloadBytes Z fs q).length) ++
        (payloadBytes Z fs q ++
          encodeList ((processQueue Z fs q 13).map (fun pe => pe.2))),
       processQueue Z fs q 13) := by
  unfold buildFresh
  rw [writeHeader_empty]
  dsimp only
  rw [writeFilesGo_spec Z fs q _ (by decide)]
  dsimp only
  have hH : (DATFILESIGNATURE ++ ([DATFILEVERSION] ++ List.replicate 8 0) :
      List Nat).length = 13 := by decide
  have hwa : writeAt (DATFILESIGNATURE ++ ([DATFILEVERSION] ++ List.replicate 8 0)) 13
      (payloadBytes Z fs q) =
      DATFILESIGNATURE ++ ([DATFILEVERSION] ++ List.replicate 8 0) ++
        payloadBytes Z fs q := by
    rw [show (13 : Nat) = (DATFILESIGNATURE ++ ([DATFILEVERSION] ++
      List.replicate 8 0) : List Nat).length from hH.symm]
    exact writeAt_append _ _
  rw [hwa]
  unfold writeTableLocation
  dsimp only [OStream.seekp]
  unfold OStream.write
  dsimp only
  have hshape : DATFILESIGNATURE ++ ([DATFILEVERSION] ++ List.replicate 8 0) ++
      payloadBytes Z fs q =
      (DATFILESIGNATURE ++ [DATFILEVERSION]) ++
        (List.replicate 8 0 ++ payloadBytes Z fs q) := by
    simp
  rw [hshape]
  rw [writeAt_patch _ _ _ _ 5 (by simp [leBytes_length]) (by simp [DATFILESIGNATURE])]
  unfold writeTableList OStream.write
  dsimp only
  have hlen2 : ((DATFILESIGNATURE ++ [DATFILEVERSION]) ++
      (leBytes 8 (13 + (payloadBytes Z fs q).length) ++ payloadBytes Z fs q) :
      List Nat).length = 13 + (payloadBytes Z fs q).length := by
    simp [DATFILESIGNATURE, leBytes_length]
    omega
  have hwa2 : writeAt ((DATFILESIGNATURE ++ [DATFILEVERSION]) ++
      (leBytes 8 (13 + (payloadBytes Z fs q).length) ++ payloadBytes Z fs q))
      (13 + (payloadBytes Z fs q).length)
      (encodeList ((processQueue Z fs q 13).map (fun pe => pe.2))) =
      ((DATFILESIGNATURE ++ [DATFILEVERSION]) ++
        (leBytes 8 (13 + (payloadBytes Z fs q).length) ++ payloadBytes Z fs q)) ++
        encodeList ((processQueue Z fs q 13).map (fun pe => pe.2)) := by
    rw [show 13 + (payloadBytes Z fs q).length = ((DATFILESIGNATURE ++ [DATFILEVERSION]) ++
      (leBytes 8 (13 + (payloadBytes Z fs q).length) ++ payloadBytes Z fs q) :
      List Nat).length from hlen2.symm]
    exact writeAt_append _ _
  rw [hwa2]
  simp [List.append_assoc]

/-!  ######################  Reading a written archive  ###################### -/

/-- Opening a file in the writer's layout succeeds and loads exactly the
encoded entries. -/
theorem openArchive_layout (T : Nat) (P : List Nat) (es : List TableEntry)
    (hT : T = 13 + P.length) (hT64 : T < 2 ^ 64) (hwf : ∀ e ∈ es, wfEntry e) :
    openArchive (some (DATFILESIGNATURE ++ [DATFILEVERSION] ++ leBytes 8 T ++
        (P ++ encodeList es))) =
      (⟨⟨DATFILESIGNATURE ++ [DATFILEVERSION] ++ leBytes 8 T ++ (P ++ encodeList es),
          0, false, false⟩,
        DATFILEVERSION, T, emplaceAll [] es, true, false⟩, true) := by
  rw [openArchive_valid T (P ++ encodeList es) hT64]
  have hshape : DATFILESIGNATURE ++ [DATFILEVERSION] ++ leBytes 8 T ++
      (P ++ encodeList es) =
      (DATFILESIGNATURE ++ [DATFILEVERSION] ++ leBytes 8 T ++ P) ++ encodeList es := by
    simp [List.append_assoc]
  have hpre : T = (DATFILESIGNATURE ++ [DATFILEVERSION] ++ leBytes 8 T ++ P).length := by
    simp [DATFILESIGNATURE, leBytes_length]
    omega
  rw [hshape]
  rw [loadTable_encodeList _ es hwf false T hpre (by omega) 13]

theorem emplaceAll_lookup_notmem (es : List TableEntry) :
    ∀ (acc : List (List Nat × TableEntry)) (k : List Nat),
      ¬ k ∈ es.map (fun x => x.name) →
      mapLookup (emplaceAll acc es) k = mapLookup acc k := by
  induction es with
  | nil => intro acc k _; rfl
  | cons e es ih =>
    intro acc k hk
    simp only [List.map_cons, List.mem_cons] at hk
    push_neg at hk
    simp only [emplaceAll]
    rw [ih _ _ (by simpa using hk.2)]
    exact mapLookup_emplace_other _ _ _ hk.1 acc

/-- With pairwise-distinct names, the index built by emplacing a list of
entries maps each entry's name to that entry. -/
theorem emplaceAll_lookup (es : List TableEntry) :
    ∀ (acc : List (List Nat × TableEntry)) (e : TableEntry), e ∈ es →
      (es.map (fun x => x.name)).Nodup →
      (∀ x ∈ es, mapLookup acc x.name = none) →
      mapLookup (emplaceAll acc es) e.name = some e := by
  induction es with
  | nil => intro acc e he; exact absurd he (by simp)
  | cons e0 es ih =>
    intro acc e he hnd hacc
    have hnd' := hnd
    simp only [List.map_cons, List.nodup_cons] at hnd'
    simp only [emplaceAll]
    rcases List.mem_cons.mp he with he0 | hes
    · subst he0
      rw [emplaceAll_lookup_notmem es _ _ hnd'.1]
      exact mapLookup_emplace_self _ _ _ (hacc e (by simp))
    · refine ih _ e hes hnd'.2 ?_
      intro x hx
      by_cases hxe : x.name = e0.name
      · exfalso
        exact hnd'.1 (by rw [← hxe]; exact List.mem_map.2 ⟨x, hx, rfl⟩)
      · rw [mapLookup_emplace_other _ _ _ hxe]
        exact hacc x (by simp [hx])

/-!  ######################  Extraction lemmas  ###################### -/

/-- The inflate loop over a complete deflate stream lying in F between the
current position and dEnd consumes it chunk by chunk, accumulates the CRC of
exactly those bytes, and ends with the decompressor's output. -/
theorem zlibLoop_run (Z : ZlibModel) (hZ : Z.Sound) (c : List Nat) (eCrc oSz : Nat)
    (v : Bool) (F : List Nat) (b : Nat) (hb : b ≤ F.length) :
    ∀ (fuel pos : Nat) (consumed : List Nat) (crc : Nat) (bad : Bool),
      pos < b → b - pos ≤ fuel →
      consumed ++ (F.drop pos).take (b - pos) = Z.compress c →
      zlibLoop Z eCrc oSz v b fuel consumed crc ⟨F, pos, false, false⟩ bad =
        ⟨if v ∧ ¬ crc32z crc ((F.drop pos).take (b - pos)) = eCrc then 0 else oSz, bad,
         Z.inflateOut (Z.compress c), ⟨F, b, false, false⟩⟩ := by
  intro fuel
  induction fuel with
  | zero =>
    intro pos consumed crc bad hpos hfuel _
    omega
  | succ fuel ih =>
    intro pos consumed crc bad hpos hfuel hcons
    by_cases hdeep : pos + CHUNKSIZE < b
    · have hn : zChunkLen b pos = CHUNKSIZE := by
        simp [zChunkLen, hdeep]
      have hrd : (⟨F, pos, false, false⟩ : IStream).readN CHUNKSIZE =
          ((F.drop pos).take CHUNKSIZE, ⟨F, pos + CHUNKSIZE, false, false⟩) :=
        readN_offset F pos CHUNKSIZE _ false rfl (by omega)
      have hch : 0 < CHUNKSIZE := by decide
      have hsplit : (F.drop pos).take (b - pos) =
          (F.drop pos).take CHUNKSIZE ++
            (F.drop (pos + CHUNKSIZE)).take (b - (pos + CHUNKSIZE)) := by
        rw [show b - pos = CHUNKSIZE + (b - (pos + CHUNKSIZE)) from by omega]
        rw [List.take_add, List.drop_drop]
      have hrc : Z.inflateRc (consumed ++ (F.drop pos).take CHUNKSIZE) =
          InflateRc.ok := by
        apply hZ.rc_short c _ ((F.drop (pos + CHUNKSIZE)).take (b - (pos + CHUNKSIZE)))
        · rw [List.append_assoc, ← hsplit]
          exact hcons
        · have hlen : ((F.drop (pos + CHUNKSIZE)).take
              (b - (pos + CHUNKSIZE))).length = b - (pos + CHUNKSIZE) := by
            simp
            omega
          intro hcontra
          rw [hcontra] at hlen
          simp at hlen
          omega
      rw [zlibLoop]
      dsimp only
      rw [hn, hrd]
      dsimp only
      simp only [Bool.false_eq_true, if_false]
      rw [hrc]
      dsimp only
      rw [ih (pos + CHUNKSIZE) (consumed ++ (F.drop pos).take CHUNKSIZE)
        (crc32z crc ((F.drop pos).take CHUNKSIZE)) bad (by omega) (by omega)
        (by rw [List.append_assoc, ← hsplit]; exact hcons)]
      rw [← crc32z_append, ← hsplit]
    · have hn : zChunkLen b pos = b - pos := by
        simp [zChunkLen, hdeep]
      have hrd : (⟨F, pos, false, false⟩ : IStream).readN (b - pos) =
          ((F.drop pos).take (b - pos), ⟨F, pos + (b - pos), false, false⟩) :=
        readN_offset F pos (b - pos) _ false rfl (by omega)
      rw [zlibLoop]
      dsimp only
      rw [hn, hrd]
      dsimp only
      simp only [Bool.false_eq_true, if_false]
      rw [hcons, hZ.rc_end c]
      dsimp only
      rw [show pos + (b - pos) = b from by omega]
      split_ifs <;> rfl

/-- zlibExtractFile over an entry whose on-disk range holds the deflate
stream of the given content. -/
theorem zlibExtractFile_run (Z : ZlibModel) (hZ : Z.Sound) (e : TableEntry)
    (content F : List Nat) (bad : Bool) (v : Bool)
    (hde : e.dataEnd = e.dataStart + (Z.compress content).length)
    (hreg : (F.drop e.dataStart).take (Z.compress content).length = Z.compress content)
    (hb : e.dataEnd ≤ F.length) :
    zlibExtractFile Z e v ⟨F, 0, false, false⟩ bad =
      ⟨if v ∧ ¬ crc32z 0 (Z.compress content) = e.crc32 then 0 else e.originalSize, bad,
       content, ⟨F, e.dataEnd, false, false⟩⟩ := by
  unfold zlibExtractFile
  have hseek : (⟨F, 0, false, false⟩ : IStream).seekg e.dataStart =
      ⟨F, e.dataStart, false, false⟩ := by
    simp [IStream.seekg]
  rw [hseek]
  have hne := hZ.compress_ne_nil content
  have hlen : 0 < (Z.compress content).length := List.length_pos.2 hne
  rw [zlibLoop_run Z hZ content e.crc32 e.originalSize v F e.dataEnd hb
    (e.dataEnd + 1) e.dataStart [] 0 bad (by omega) (by omega)
    (by rw [List.nil_append, show e.dataEnd - e.dataStart = (Z.compress content).length
      from by omega, hreg])]
  rw [show e.dataEnd - e.dataStart = (Z.compress content).length from by omega, hreg,
    hZ.out_spec]

theorem fitTo_self (l : List Nat) : fitTo l.length l = l := by
  simp [fitTo]

/-- getFile on an open, non-bad reader whose index maps the name to an
uncompressed entry whose range holds the content and whose stored CRC is
the content's CRC. -/
theorem getFile_method_none (Z : ZlibModel) (F : List Nat) (ver T : Nat)
    (m : List (List Nat × TableEntry)) (name : List Nat) (e : TableEntry)
    (content : List Nat) (hlk : mapLookup m name = some e)
    (hcm : e.compressionMethod = cmNONE)
    (horig : e.originalSize = content.length)
    (hde : e.dataEnd = e.dataStart + content.length)
    (hreg : (F.drop e.dataStart).take content.length = content)
    (hcrc : e.crc32 = crc32z 0 content)
    (hb : e.dataEnd ≤ F.length) :
    (DatArchiveReader.getFile Z ⟨⟨F, 0, false, false⟩, ver, T, m, true, false⟩ name).1 =
      content := by
  have hext : extractFile e true ⟨F, 0, false, false⟩ =
      (content.length, content, ⟨F, e.dataStart + content.length, false, false⟩) := by
    unfold extractFile
    have hseek : (⟨F, 0, false, false⟩ : IStream).seekg e.dataStart =
        ⟨F, e.dataStart, false, false⟩ := by
      simp [IStream.seekg]
    rw [hseek]
    dsimp only
    have hsz : e.sizeInArchive = content.length := by
      unfold TableEntry.sizeInArchive
      omega
    rw [hsz]
    rw [readN_offset F e.dataStart content.length content false hreg.symm (by omega)]
    dsimp only
    rw [← hcrc]
    rw [if_neg (by simp)]
    unfold IStream.tellg
    simp
  have hdisp : getFileFromEntry Z e true ⟨F, 0, false, false⟩ false =
      ⟨content.length, false, content, ⟨F, e.dataStart + content.length, false, false⟩⟩ := by
    unfold getFileFromEntry
    rw [hcm, if_pos rfl, hext]
  unfold DatArchiveReader.getFile
  rw [if_neg (by simp)]
  rw [if_neg (by simp [DatArchiveReader.contains, hlk])]
  dsimp only
  rw [hlk]
  dsimp only [Option.getD]
  rw [hdisp]
  dsimp only
  by_cases hnil : content = []
  · subst hnil
    simp
  · rw [if_pos (by simpa [List.length_eq_zero] using hnil)]
    dsimp only
    rw [horig, fitTo_self]

/-- getFile on an open, non-bad reader whose index maps the name to a
ZLIB entry whose range holds the deflate stream of the content and whose
stored CRC is the stream's CRC. -/
theorem getFile_method_zlib (Z : ZlibModel) (hZ : Z.Sound) (F : List Nat) (ver T : Nat)
    (m : List (List Nat × TableEntry)) (name : List Nat) (e : TableEntry)
    (content : List Nat) (hlk : mapLookup m name = some e)
    (hcm : e.compressionMethod = cmZLIB)
    (horig : e.originalSize = content.length)
    (hde : e.dataEnd = e.dataStart + (Z.compress content).length)
    (hreg : (F.drop e.dataStart).take (Z.compress content).length = Z.compress content)
    (hcrc : e.crc32 = crc32z 0 (Z.compress content))
    (hb : e.dataEnd ≤ F.length) :
    (DatArchiveReader.getFile Z ⟨⟨F, 0, false, false⟩, ver, T, m, true, false⟩ name).1 =
      content := by
  have hrun := zlibExtractFile_run Z hZ e content F false true hde hreg hb
  rw [← hcrc] at hrun
  rw [if_neg (by simp)] at hrun
  have hdisp : getFileFromEntry Z e true ⟨F, 0, false, false⟩ false =
      ⟨e.originalSize, false, content, ⟨F, e.dataEnd, false, false⟩⟩ := by
    unfold getFileFromEntry
    rw [hcm]
    rw [if_neg (by decide), if_pos rfl, hrun]
  unfold DatArchiveReader.getFile
  rw [if_neg (by simp)]
  rw [if_neg (by simp [DatArchiveReader.contains, hlk])]
  dsimp only
  rw [hlk]
  dsimp only [Option.getD]
  rw [hdisp]
  dsimp only
  by_cases hnil : content = []
  · subst hnil
    rw [horig]
    simp [fitTo]
  · rw [if_pos (by rw [horig]; simpa [List.length_eq_zero] using hnil)]
    dsimp only
    rw [horig, fitTo_self]

/-!  ######################  Queue bookkeeping lemmas  ###################### -/

theorem updatedEntry_name (Z : ZlibModel) (c : List Nat) (e : TableEntry) (start : Nat) :
    (updatedEntry Z c e start).name = e.name := by
  unfold updatedEntry
  split_ifs <;> rfl

theorem updatedEntry_none (Z : ZlibModel) (c : List Nat) (e : TableEntry) (start : Nat)
    (h : e.compressionMethod = cmNONE) :
    updatedEntry Z c e start =
      { e with
        dataStart := start,
        originalSize := c.length,
        crc32 := crc32z 0 c,
        dataEnd := start + c.length } := by
  unfold updatedEntry
  rw [if_pos h]

theorem updatedEntry_zlib (Z : ZlibModel) (c : List Nat) (e : TableEntry) (start : Nat)
    (h : e.compressionMethod = cmZLIB) :
    updatedEntry Z c e start =
      { e with
        dataStart := start,
        originalSize := c.length,
        crc32 := crc32z e.crc32 (Z.compress c),
        dataEnd := start + (Z.compress c).length } := by
  unfold updatedEntry
  rw [if_neg (by rw [h]; decide), if_pos h]

theorem processQueue_names (Z : ZlibModel) (fs : Nat → Option (List Nat)) :
    ∀ (q : List (Nat × TableEntry)) (start : Nat),
      (processQueue Z fs q start).map (fun pe => pe.2.name) =
        q.map (fun pe => pe.2.name) := by
  intro q
  induction q with
  | nil => intro start; rfl
  | cons pe rest ih =>
    intro start
    obtain ⟨p, e⟩ := pe
    cases hfs : fs p <;> simp [processQueue, hfs, ih, updatedEntry_name]

/-- Each queued file with an existing source contributes a payload segment
at a definite offset, and its updated entry is in the processed queue. -/
theorem processQueue_mem (Z : ZlibModel) (fs : Nat → Option (List Nat)) :
    ∀ (q : List (Nat × TableEntry)) (start p : Nat) (e : TableEntry) (c : List Nat),
      (p, e) ∈ q → fs p = some c →
      ∃ A B : List Nat,
        payloadBytes Z fs q = A ++ (onDisk Z e.compressionMethod c ++ B) ∧
        (p, updatedEntry Z c e (start + A.length)) ∈ processQueue Z fs q start := by
  intro q
  induction q with
  | nil => intro start p e c h _; exact absurd h (by simp)
  | cons pe rest ih =>
    intro start p e c hmem hfs
    obtain ⟨p0, e0⟩ := pe
    rcases List.mem_cons.mp hmem with hhead | htail
    · obtain ⟨hp, he⟩ := Prod.mk.injEq p e p0 e0 ▸ hhead
      subst hp
      subst he
      refine ⟨[], payloadBytes Z fs rest, ?_, ?_⟩
      · simp [payloadBytes, hfs]
      · simp [processQueue, hfs]
    · cases hfs0 : fs p0 with
      | none =>
        obtain ⟨A, B, hA, hm⟩ := ih start p e c htail hfs
        refine ⟨A, B, ?_, ?_⟩
        · simp [payloadBytes, hfs0, hA]
        · simp [processQueue, hfs0]
          right
          exact hm
      | some c0 =>
        obtain ⟨A, B, hA, hm⟩ :=
          ih (start + (onDisk Z e0.compressionMethod c0).length) p e c htail hfs
        refine ⟨onDisk Z e0.compressionMethod c0 ++ A, B, ?_, ?_⟩
        · simp [payloadBytes, hfs0, hA, List.append_assoc]
        · simp only [processQueue, hfs0, List.length_append, List.mem_cons]
          right
          rw [show start + ((onDisk Z e0.compressionMethod c0).length + A.length) =
            start + (onDisk Z e0.compressionMethod c0).length + A.length from by omega]
          exact hm

/-- Processed entries are well formed when the queue's fields are bounded
and the final write position stays below 2 to the 64. -/
theorem processQueue_wf (Z : ZlibModel) (fs : Nat → Option (List Nat)) :
    ∀ (q : List (Nat × TableEntry)) (start : Nat),
      (∀ pe ∈ q, (fs pe.1).isSome = true ∧ pe.2.name.length < 65536 ∧
        pe.2.compressionMethod < 256 ∧ pe.2.crc32 < 2 ^ 32 ∧
        ((fs pe.1).getD []).length < 2 ^ 64) →
      start + (payloadBytes Z fs q).length < 2 ^ 64 →
      ∀ pe ∈ processQueue Z fs q start, wfEntry pe.2 := by
  intro q
  induction q with
  | nil => intro start _ _ pe h; exact absurd h (by simp [processQueue])
  | cons pe0 rest ih =>
    intro start hq hsmall pe hmem
    obtain ⟨p0, e0⟩ := pe0
    have h0 := hq (p0, e0) (by simp)
    obtain ⟨c0, hfs0⟩ := Option.isSome_iff_exists.mp h0.1
    dsimp only at h0 hfs0
    have hc0len : c0.length < 2 ^ 64 := by
      have := h0.2.2.2.2
      rw [hfs0] at this
      simpa using this
    have hplen : (payloadBytes Z fs ((p0, e0) :: rest)).length =
        (onDisk Z e0.compressionMethod c0).length +
          (payloadBytes Z fs rest).length := by
      simp [payloadBytes, hfs0]
    simp only [processQueue, hfs0, List.mem_cons] at hmem
    rcases hmem with hh | ht
    · subst hh
      unfold wfEntry updatedEntry
      have hso : (onDisk Z e0.compressionMethod c0).length ≤
          (payloadBytes Z fs ((p0, e0) :: rest)).length := by
        rw [hplen]
        omega
      split_ifs with h1 h2
      · dsimp only
        refine ⟨h0.2.1, h0.2.2.1, crc32z_lt _ _ (by norm_num), hc0len, by omega, ?_⟩
        have : (onDisk Z e0.compressionMethod c0).length = c0.length := by
          simp [onDisk, h1]
        omega
      · dsimp only
        refine ⟨h0.2.1, h0.2.2.1, crc32z_lt _ _ h0.2.2.2.1, hc0len, by omega, ?_⟩
        have : (onDisk Z e0.compressionMethod c0).length = (Z.compress c0).length := by
          unfold onDisk
          rw [h2, if_neg (by decide), if_pos rfl]
        omega
      · dsimp only
        exact ⟨h0.2.1, h0.2.2.1, h0.2.2.2.1, hc0len, by omega, by omega⟩
    · refine ih (start + (onDisk Z e0.compressionMethod c0).length)
        (fun x hx => hq x (by simp [hx])) (by omega) pe ht

theorem region_extract (T : Nat) (A seg B tbl : List Nat) (n : Nat) (hn : n = seg.length) :
    ((DATFILESIGNATURE ++ [DATFILEVERSION] ++ leBytes 8 T ++
        ((A ++ (seg ++ B)) ++ tbl)).drop (13 + A.length)).take n = seg := by
  subst hn
  have hshape : DATFILESIGNATURE ++ [DATFILEVERSION] ++ leBytes 8 T ++
      ((A ++ (seg ++ B)) ++ tbl) =
      ((DATFILESIGNATURE ++ [DATFILEVERSION] ++ leBytes 8 T) ++ A) ++
        (seg ++ (B ++ tbl)) := by
    simp [List.append_assoc]
  rw [hshape]
  exact seg_extract _ _ _ _ _ (by simp [DATFILESIGNATURE, leBytes_length]; omega) rfl

/-!  ######################  Claim C1  ###################### -/

/-- The conditions under which writeArchive's round trip is exercised:
pairwise-distinct entry names, every queued source present on the
filesystem, compression methods restricted to the two enum values, the
crc32 field at its fresh-entry default of zero, and name/content sizes
within their record fields. -/
def WFQueue (fs : Nat → Option (List Nat)) (q : List (Nat × TableEntry)) : Prop :=
  (q.map (fun pe => pe.2.name)).Nodup ∧
  ∀ pe ∈ q, (fs pe.1).isSome = true ∧ pe.2.name.length < 65536 ∧
    (pe.2.compressionMethod = cmNONE ∨ pe.2.compressionMethod = cmZLIB) ∧
    pe.2.crc32 = 0 ∧ ((fs pe.1).getD []).length < 2 ^ 64

instance (fs : Nat → Option (List Nat)) (q : List (Nat × TableEntry)) :
    Decidable (WFQueue fs q) := by
  unfold WFQueue
  infer_instance

/-- C1: Round-trip.  For every sound compression engine, filesystem, and
writer queue of distinct named payloads with methods NONE or ZLIB,
writeArchive to a fresh destination succeeds and returns the built file;
opening that file succeeds; and for every queued name, getFile returns the
original content byte for byte, with the entry's stored CRC equal to the
CRC-32 the reader recomputes over the entry's on-disk bytes. -/
theorem claim1_round_trip (Z : ZlibModel) (hZ : Z.Sound) (fs : Nat → Option (List Nat))
    (w : DatArchiveWriter) (destination : Nat) (overwrite : Bool)
    (hdest : fs destination = none)
    (hwfq : WFQueue fs w.fileEntries)
    (hsmall : 13 + (payloadBytes Z fs w.fileEntries).length < 2 ^ 64) :
    (w.writeArchive Z fs destination overwrite).1 = true ∧
    (w.writeArchive Z fs destination overwrite).2.1 =
      some (buildFresh Z fs w.fileEntries).1 ∧
    (openArchive (some (buildFresh Z fs w.fileEntries).1)).2 = true ∧
    ∀ p e c, (p, e) ∈ w.fileEntries → fs p = some c →
      (DatArchiveReader.getFile Z
          (openArchive (some (buildFresh Z fs w.fileEntries).1)).1 e.name).1 = c ∧
      ∃ e2, mapLookup (openArchive (some (buildFresh Z fs w.fileEntries).1)).1.entries
            e.name = some e2 ∧
          e2.crc32 = crc32z 0 (onDisk Z e.compressionMethod c) := by
  obtain ⟨hnd, hball⟩ := hwfq
  have hwa : w.writeArchive Z fs destination overwrite =
      (true, some (buildFresh Z fs w.fileEntries).1, ⟨(buildFresh Z fs w.fileEntries).2⟩) := by
    unfold DatArchiveWriter.writeArchive
    rw [hdest]
    rfl
  have hwf_es : ∀ e ∈ (processQueue Z fs w.fileEntries 13).map (fun pe => pe.2),
      wfEntry e := by
    intro e he
    obtain ⟨pe, hpe, hpe2⟩ := List.mem_map.mp he
    rw [← hpe2]
    refine processQueue_wf Z fs w.fileEntries 13 ?_ hsmall pe hpe
    intro x hx
    obtain ⟨h1, h2, h3, h4, h5⟩ := hball x hx
    refine ⟨h1, h2, ?_, ?_, h5⟩
    · rcases h3 with h | h <;> rw [h] <;> decide
    · rw [h4]
      decide
  have hF1 : (buildFresh Z fs w.fileEntries).1 =
      DATFILESIGNATURE ++ [DATFILEVERSION] ++
        leBytes 8 (13 + (payloadBytes Z fs w.fileEntries).length) ++
        (payloadBytes Z fs w.fileEntries ++
          encodeList ((processQueue Z fs w.fileEntries 13).map (fun pe => pe.2))) := by
    rw [buildFresh_spec Z fs w.fileEntries]
  have hopen := openArchive_layout (13 + (payloadBytes Z fs w.fileEntries).length)
      (payloadBytes Z fs w.fileEntries)
      ((processQueue Z fs w.fileEntries 13).map (fun pe => pe.2)) rfl hsmall hwf_es
  refine ⟨by rw [hwa], by rw [hwa], by rw [hF1, hopen], ?_⟩
  intro p e c hmem hfs
  obtain ⟨A, B, hA, hmemQ⟩ := processQueue_mem Z fs w.fileEntries 13 p e c hmem hfs
  have he'mem : updatedEntry Z c e (13 + A.length) ∈
      (processQueue Z fs w.fileEntries 13).map (fun pe => pe.2) :=
    List.mem_map.2 ⟨(p, updatedEntry Z c e (13 + A.length)), hmemQ, rfl⟩
  have hnod_es : ((((processQueue Z fs w.fileEntries 13).map (fun pe => pe.2)).map
      (fun x => x.name))).Nodup := by
    rw [List.map_map]
    have h2 : ((fun x : TableEntry => x.name) ∘ fun pe : Nat × TableEntry => pe.2) =
        fun pe : Nat × TableEntry => pe.2.name := rfl
    rw [h2, processQueue_names]
    exact hnd
  have hlk : mapLookup
      (emplaceAll [] ((processQueue Z fs w.fileEntries 13).map (fun pe => pe.2)))
      e.name = some (updatedEntry Z c e (13 + A.length)) := by
    have h1 := emplaceAll_lookup _ [] (updatedEntry Z c e (13 + A.length)) he'mem
      hnod_es (fun x _ => rfl)
    rwa [updatedEntry_name] at h1
  obtain ⟨_, _, hcm2, hcrc0, _⟩ := hball (p, e) hmem
  dsimp only at hcm2 hcrc0
  rw [hF1, hopen]
  dsimp only
  rcases hcm2 with hcmN | hcmZ
  · have hod : onDisk Z e.compressionMethod c = c := by
      unfold onDisk
      rw [if_pos hcmN]
    have he' : updatedEntry Z c e (13 + A.length) =
        { e with
          dataStart := 13 + A.length,
          originalSize := c.length,
          crc32 := crc32z 0 c,
          dataEnd := 13 + A.length + c.length } := updatedEntry_none Z c e _ hcmN
    rw [he'] at hlk
    have hlenP : (payloadBytes Z fs w.fileEntries).length =
        A.length + (c.length + B.length) := by
      rw [hA, hod]
      simp
    have hreg : (((DATFILESIGNATURE ++ [DATFILEVERSION] ++
        leBytes 8 (13 + (payloadBytes Z fs w.fileEntries).length) ++
        (payloadBytes Z fs w.fileEntries ++
          encodeList ((processQueue Z fs w.fileEntries 13).map (fun pe => pe.2)))).drop
        (13 + A.length)).take c.length) = c := by
      conv_lhs => rw [hA, hod]
      exact region_extract _ A c B _ c.length rfl
    have hb : 13 + A.length + c.length ≤
        (DATFILESIGNATURE ++ [DATFILEVERSION] ++
          leBytes 8 (13 + (payloadBytes Z fs w.fileEntries).length) ++
          (payloadBytes Z fs w.fileEntries ++
            encodeList ((processQueue Z fs w.fileEntries 13).map
              (fun pe => pe.2)))).length := by
      simp [DATFILESIGNATURE, leBytes_length]
      omega
    refine ⟨getFile_method_none Z _ DATFILEVERSION _ _ e.name _ c hlk hcmN rfl rfl
      hreg rfl hb, ?_⟩
    refine ⟨_, hlk, ?_⟩
    rw [hod]
  · have hcne : ¬ e.compressionMethod = cmNONE := by
      rw [hcmZ]
      decide
    have hod : onDisk Z e.compressionMethod c = Z.compress c := by
      unfold onDisk
      rw [if_neg hcne, if_pos hcmZ]
    have he' : updatedEntry Z c e (13 + A.length) =
        { e with
          dataStart := 13 + A.length,
          originalSize := c.length,
          crc32 := crc32z 0 (Z.compress c),
          dataEnd := 13 + A.length + (Z.compress c).length } := by
      rw [updatedEntry_zlib Z c e _ hcmZ, hcrc0]
    rw [he'] at hlk
    have hlenP : (payloadBytes Z fs w.fileEntries).length =
        A.length + ((Z.compress c).length + B.length) := by
      rw [hA, hod]
      simp
    have hreg : (((DATFILESIGNATURE ++ [DATFILEVERSION] ++
        leBytes 8 (13 + (payloadBytes Z fs w.fileEntries).length) ++
        (payloadBytes Z fs w.fileEntries ++
          encodeList ((processQueue Z fs w.fileEntries 13).map (fun pe => pe.2)))).drop
        (13 + A.length)).take (Z.compress c).length) = Z.compress c := by
      conv_lhs => rw [hA, hod]
      exact region_extract _ A (Z.compress c) B _ (Z.compress c).length rfl
    have hb : 13 + A.length + (Z.compress c).length ≤
        (DATFILESIGNATURE ++ [DATFILEVERSION] ++
          leBytes 8 (13 + (payloadBytes Z fs w.fileEntries).length) ++
          (payloadBytes Z fs w.fileEntries ++
            encodeList ((processQueue Z fs w.fileEntries 13).map
              (fun pe => pe.2)))).length := by
      simp [DATFILESIGNATURE, leBytes_length]
      omega
    refine ⟨getFile_method_zlib Z hZ _ DATFILEVERSION _ _ e.name _ c hlk hcmZ rfl rfl
      hreg rfl hb, ?_⟩
    refine ⟨_, hlk, ?_⟩
    rw [hod]

/-- A concrete sound engine for exercising the round-trip theorems: the
deflate stream is the content prefixed by its length, which makes it
nonempty and self-delimiting. -/
def Z0 : ZlibModel where
  compress c := c.length :: c
  inflateRc p := if p.length = p.headD 0 + 1 then InflateRc.streamEnd else InflateRc.ok
  inflateOut p := p.drop 1

theorem Z0_sound : Z0.Sound := by
  constructor
  · intro c
    simp [Z0]
  · intro c
    simp [Z0]
  · intro c p q hpq hq
    cases p with
    | nil => simp [Z0]
    | cons x p2 =>
      have hx : x = c.length := by
        have h1 := congrArg (fun l => l.headD 0) hpq
        simpa using h1
      have hlen : p2.length + q.length = c.length := by
        have h1 := congrArg List.length hpq
        simp [Z0] at h1
        omega
      have hqpos : 0 < q.length := List.length_pos.mpr hq
      have hne : ¬ ((x :: p2).length = (x :: p2).headD 0 + 1) := by
        simp [hx]
        omega
      simp only [Z0]
      rw [if_neg hne]
  · intro c
    simp [Z0]

/-- A two-file filesystem for the witnesses. -/
def fs0 : Nat → Option (List Nat) := fun p =>
  if p = 1 then some [7, 8] else if p = 2 then some [1, 2, 3] else none

def e01 : TableEntry := { name := [10], compressionMethod := cmNONE }

def e02 : TableEntry := { name := [11], compressionMethod := cmZLIB }

def w0 : DatArchiveWriter := ⟨[(1, e01), (2, e02)]⟩

theorem claim1_round_trip_witness :
    (DatArchiveReader.getFile Z0
        (openArchive (some (buildFresh Z0 fs0 w0.fileEntries).1)).1 [11]).1 = [1, 2, 3] := by
  have h := claim1_round_trip Z0 Z0_sound fs0 w0 9 false rfl (by decide) (by decide)
  have h4 := h.2.2.2 2 e02 [1, 2, 3] (by decide) rfl
  exact h4.1

/-!  ######################  Claim C7  ###################### -/

theorem fitTo_length (n : Nat) (l : List Nat) : (fitTo n l).length = n := by
  simp [fitTo]
  omega

/-- C7: getFile returns empty when the archive is not open or is bad, when
the name is absent from the index, and when the extraction reports failure
(in particular a CRC-32 mismatch under the default validation for a NONE
entry, and a first-chunk Z_DATA_ERROR from inflate for a ZLIB entry);
otherwise the returned buffer has exactly originalSize bytes. -/
theorem claim7_getFile_cases (Z : ZlibModel) (r : DatArchiveReader) (name : List Nat) :
    ((¬ r.openFlag = true ∨ r.badFlag = true) → r.getFile Z name = ([], r)) ∧
    (r.openFlag = true → r.badFlag = false → mapLookup r.entries name = none →
      r.getFile Z name = ([], r)) ∧
    (∀ e, r.openFlag = true → r.badFlag = false → mapLookup r.entries name = some e →
      ((getFileFromEntry Z e true r.archive r.badFlag).ret = 0 →
        (r.getFile Z name).1 = []) ∧
      (¬ (getFileFromEntry Z e true r.archive r.badFlag).ret = 0 →
        (r.getFile Z name).1.length = e.originalSize)) ∧
    (∀ e : TableEntry, e.compressionMethod = cmNONE →
      ¬ crc32z 0 ((r.archive.seekg e.dataStart).readN e.sizeInArchive).1 = e.crc32 →
      (getFileFromEntry Z e true r.archive r.badFlag).ret = 0) ∧
    (∀ e : TableEntry, e.compressionMethod = cmZLIB →
      r.archive.badFlag = false → r.archive.failFlag = false →
      Z.inflateRc ((r.archive.seekg e.dataStart).readN
          (zChunkLen e.dataEnd e.dataStart)).1 = InflateRc.dataError →
      (getFileFromEntry Z e true r.archive r.badFlag).ret = 0) := by
  refine ⟨fun h => ?_, fun hop hbad hlk => ?_, fun e hop hbad hlk => ?_,
    fun e hcm hne => ?_, fun e hcm hb hf herr => ?_⟩
  · unfold DatArchiveReader.getFile
    rw [if_pos h]
  · unfold DatArchiveReader.getFile
    rw [if_neg (by simp [hop, hbad])]
    rw [if_pos (by simp [DatArchiveReader.contains, hlk])]
  · unfold DatArchiveReader.getFile
    rw [if_neg (by simp [hop, hbad])]
    rw [if_neg (by simp [DatArchiveReader.contains, hlk])]
    dsimp only
    rw [hlk]
    dsimp only [Option.getD]
    refine ⟨fun h0 => ?_, fun hne => ?_⟩
    · rw [if_neg (by simp [h0])]
    · rw [if_pos hne]
      dsimp only
      exact fitTo_length _ _
  · unfold getFileFromEntry
    rw [if_pos hcm]
    dsimp only
    unfold extractFile
    dsimp only
    split_ifs with h
    · rfl
    · exact absurd ⟨rfl, hne⟩ h
  · unfold getFileFromEntry
    rw [if_neg (by rw [hcm]; decide), if_pos hcm]
    have hseek : r.archive.seekg e.dataStart = { r.archive with pos := e.dataStart } := by
      simp [IStream.seekg, hf]
    rw [hseek] at herr
    have hp : ({ r.archive with pos := e.dataStart } : IStream).pos = e.dataStart := rfl
    have hrdbad : (({ r.archive with pos := e.dataStart } : IStream).readN
        (zChunkLen e.dataEnd e.dataStart)).2.badFlag = false := by
      rw [readN_badFlag]
      exact hb
    unfold zlibExtractFile
    rw [hseek]
    simp only [zlibLoop, hp, hrdbad, Bool.false_eq_true, if_false, List.nil_append]
    rw [herr]

def e7 : TableEntry :=
  { name := [10], crc32 := 1, originalSize := 2, dataStart := 0, dataEnd := 2 }

theorem claim7_getFile_cases_witness :
    DatArchiveReader.getFile Z0 ⟨⟨[], 0, false, false⟩, 1, 0, [], false, true⟩ [5] =
      ([], ⟨⟨[], 0, false, false⟩, 1, 0, [], false, true⟩) ∧
    DatArchiveReader.getFile Z0 ⟨⟨[], 0, false, false⟩, 1, 0, [], true, false⟩ [5] =
      ([], ⟨⟨[], 0, false, false⟩, 1, 0, [], true, false⟩) ∧
    (getFileFromEntry Z0 e7 true ⟨[9, 9], 0, false, false⟩ false).ret = 0 := by
  refine ⟨(claim7_getFile_cases Z0 _ [5]).1 (Or.inr rfl),
    (claim7_getFile_cases Z0 _ [5]).2.1 rfl rfl rfl,
    (claim7_getFile_cases Z0 ⟨⟨[9, 9], 0, false, false⟩, 1, 0, [], true, false⟩ [5]).2.2.2.1
      e7 rfl (by decide)⟩

/-!  ######################  Append machinery  ###################### -/

/-- Emplacing distinct-named entries into a map they are absent from
permutes to appending their bindings. -/
theorem emplaceAll_perm (es : List TableEntry) :
    ∀ acc : List (List Nat × TableEntry),
      (∀ e ∈ es, mapLookup acc e.name = none) →
      ((es.map (fun e => e.name))).Nodup →
      List.Perm (emplaceAll acc es) (acc ++ es.map (fun e => (e.name, e))) := by
  induction es with
  | nil => intro acc _ _; simp [emplaceAll]
  | cons e es ih =>
    intro acc hacc hnd
    simp only [List.map_cons, List.nodup_cons] at hnd
    have hstep : List.Perm (mapEmplace acc e.name e) ((e.name, e) :: acc) :=
      mapEmplace_perm e.name e acc (hacc e (by simp))
    have hacc2 : ∀ x ∈ es, mapLookup (mapEmplace acc e.name e) x.name = none := by
      intro x hx
      have hxe : ¬ x.name = e.name := by
        intro hcontra
        exact hnd.1 (by rw [← hcontra]; exact List.mem_map.2 ⟨x, hx, rfl⟩)
      rw [mapLookup_emplace_other _ _ _ hxe]
      exact hacc x (by simp [hx])
    have h1 := ih (mapEmplace acc e.name e) hacc2 hnd.2
    simp only [emplaceAll]
    refine h1.trans ?_
    refine (hstep.append_right (es.map (fun e => (e.name, e)))).trans ?_
    simp only [List.cons_append, List.map_cons]
    exact List.perm_middle.symm

theorem emplaceAll_values_perm (es : List TableEntry)
    (hnd : ((es.map (fun e => e.name))).Nodup) :
    List.Perm ((emplaceAll [] es).map (fun pe => pe.2)) es := by
  have h := (emplaceAll_perm es [] (fun _ _ => rfl) hnd).map
    (fun pe : List Nat × TableEntry => pe.2)
  simp only [List.nil_append, List.map_map] at h
  rw [show ((fun pe : List Nat × TableEntry => pe.2) ∘ fun e : TableEntry => (e.name, e)) =
    id from rfl, List.map_id] at h
  exact h

theorem encodeList_append (a b : List TableEntry) :
    encodeList (a ++ b) = encodeList a ++ encodeList b := by
  induction a with
  | nil => simp [encodeList]
  | cons e a ih => simp [encodeList, ih]

theorem encodeList_length_sum (es : List TableEntry) :
    (encodeList es).length = (es.map (fun e => (encodeEntry e).length)).sum := by
  induction es with
  | nil => rfl
  | cons e es ih => simp [encodeList, ih]

theorem encodeList_length_perm (a b : List TableEntry) (h : List.Perm a b) :
    (encodeList a).length = (encodeList b).length := by
  rw [encodeList_length_sum, encodeList_length_sum]
  exact (h.map (fun e => (encodeEntry e).length)).sum_eq

/-- Overwriting from the end of a prefix replaces as much of the suffix as
the data covers. -/
theorem writeAt_mid (X R d : List Nat) :
    writeAt (X ++ R) X.length d = X ++ (d ++ R.drop d.length) := by
  unfold writeAt
  rw [List.take_left]
  have h0 : X.length - (X ++ R).length = 0 := by simp
  rw [h0]
  have h1 : (X ++ R).drop (X.length + d.length) = R.drop d.length := by
    rw [← List.drop_drop, List.drop_left]
  rw [h1]
  simp

/-- Bytes strictly between the header and the table offset are read the
same through any 13-byte header and any table suffix. -/
theorem region_stable (H1 H2 P R1 R2 : List Nat) (ds n : Nat)
    (h1 : H1.length = 13) (h2 : H2.length = 13) (hds : 13 ≤ ds)
    (hn : ds + n ≤ 13 + P.length) :
    ((H1 ++ (P ++ R1)).drop ds).take n = ((H2 ++ (P ++ R2)).drop ds).take n := by
  have aux : ∀ (H R : List Nat), H.length = 13 →
      ((H ++ (P ++ R)).drop ds).take n = (P.drop (ds - 13)).take n := by
    intro H R hH
    rw [List.drop_append_eq_append_drop]
    rw [List.drop_eq_nil_of_le (by omega), List.nil_append, hH]
    rw [List.drop_append_eq_append_drop]
    rw [List.take_append_eq_append_take]
    have hz : n - (P.drop (ds - 13)).length = 0 := by
      simp only [List.length_drop]
      omega
    rw [hz, List.take_zero, List.append_nil]
  rw [aux H1 R1 h1, aux H2 R2 h2]

/-- The write sequence appendArchive performs once the destination is open:
queued payloads over the old table, header offset patch, the given (sorted
old) records, then the updated queue's records.  When the two tables cover
the old one's bytes, the old table is fully overwritten. -/
theorem appendCore (Z : ZlibModel) (fs : Nat → Option (List Nat))
    (q1 : List (Nat × TableEntry)) (Told : Nat) (P R : List Nat)
    (sorted : List TableEntry)
    (hcover : R.length ≤ (payloadBytes Z fs q1).length + (encodeList sorted).length) :
    (writeFilesGo Z fs q1 ⟨DATFILESIGNATURE ++ [DATFILEVERSION] ++ leBytes 8 Told ++
        (P ++ R), 13 + P.length⟩).1 = processQueue Z fs q1 (13 + P.length) ∧
    (writeTableList (writeTableList (writeTableLocation
        (writeFilesGo Z fs q1 ⟨DATFILESIGNATURE ++ [DATFILEVERSION] ++ leBytes 8 Told ++
          (P ++ R), 13 + P.length⟩).2) sorted)
        ((writeFilesGo Z fs q1 ⟨DATFILESIGNATURE ++ [DATFILEVERSION] ++ leBytes 8 Told ++
          (P ++ R), 13 + P.length⟩).1.map (fun pe => pe.2))).data =
      DATFILESIGNATURE ++ [DATFILEVERSION] ++
        leBytes 8 (13 + P.length + (payloadBytes Z fs q1).length) ++
        ((P ++ payloadBytes Z fs q1) ++
          (encodeList sorted ++
            encodeList ((processQueue Z fs q1 (13 + P.length)).map (fun pe => pe.2)))) := by
  have hpos : (13 + P.length : Nat) ≤
      (DATFILESIGNATURE ++ [DATFILEVERSION] ++ leBytes 8 Told ++ (P ++ R)).length := by
    simp [DATFILESIGNATURE, leBytes_length]
    omega
  have hw := writeFilesGo_spec Z fs q1
    ⟨DATFILESIGNATURE ++ [DATFILEVERSION] ++ leBytes 8 Told ++ (P ++ R),
      13 + P.length⟩ hpos
  refine ⟨by rw [hw], ?_⟩
  rw [hw]
  dsimp only
  have hXlen : (DATFILESIGNATURE ++ [DATFILEVERSION] ++ leBytes 8 Told ++ P).length =
      13 + P.length := by
    simp [DATFILESIGNATURE, leBytes_length]
    omega
  have hshape1 : DATFILESIGNATURE ++ [DATFILEVERSION] ++ leBytes 8 Told ++ (P ++ R) =
      (DATFILESIGNATURE ++ [DATFILEVERSION] ++ leBytes 8 Told ++ P) ++ R := by
    simp [List.append_assoc]
  have hmid := writeAt_mid (DATFILESIGNATURE ++ [DATFILEVERSION] ++ leBytes 8 Told ++ P)
    R (payloadBytes Z fs q1)
  rw [hXlen] at hmid
  rw [hshape1, hmid]
  unfold writeTableLocation
  dsimp only [OStream.seekp]
  unfold OStream.write
  dsimp only
  have hshape2 : (DATFILESIGNATURE ++ [DATFILEVERSION] ++ leBytes 8 Told ++ P) ++
      (payloadBytes Z fs q1 ++ R.drop (payloadBytes Z fs q1).length) =
      (DATFILESIGNATURE ++ [DATFILEVERSION]) ++ (leBytes 8 Told ++
        (P ++ (payloadBytes Z fs q1 ++ R.drop (payloadBytes Z fs q1).length))) := by
    simp [List.append_assoc]
  rw [hshape2]
  rw [writeAt_patch _ _ _ _ 5 (by simp [leBytes_length]) (by simp [DATFILESIGNATURE])]
  unfold writeTableList OStream.write
  dsimp only
  have hshape3 : (DATFILESIGNATURE ++ [DATFILEVERSION]) ++
      (leBytes 8 (13 + P.length + (payloadBytes Z fs q1).length) ++
        (P ++ (payloadBytes Z fs q1 ++ R.drop (payloadBytes Z fs q1).length))) =
      (DATFILESIGNATURE ++ [DATFILEVERSION] ++
        leBytes 8 (13 + P.length + (payloadBytes Z fs q1).length) ++ P ++
        payloadBytes Z fs q1) ++ R.drop (payloadBytes Z fs q1).length := by
    simp [List.append_assoc]
  have hX2len : (DATFILESIGNATURE ++ [DATFILEVERSION] ++
      leBytes 8 (13 + P.length + (payloadBytes Z fs q1).length) ++ P ++
      payloadBytes Z fs q1).length = 13 + P.length + (payloadBytes Z fs q1).length := by
    simp [DATFILESIGNATURE, leBytes_length]
    omega
  have hmid2 := writeAt_mid (DATFILESIGNATURE ++ [DATFILEVERSION] ++
    leBytes 8 (13 + P.length + (payloadBytes Z fs q1).length) ++ P ++
    payloadBytes Z fs q1) (R.drop (payloadBytes Z fs q1).length) (encodeList sorted)
  rw [hX2len] at hmid2
  rw [hshape3, hmid2]
  have hnil2 : (R.drop (payloadBytes Z fs q1).length).drop (encodeList sorted).length =
      [] := by
    apply List.drop_eq_nil_of_le
    simp only [List.length_drop]
    omega
  rw [hnil2, List.append_nil]
  have hX3len : ((DATFILESIGNATURE ++ [DATFILEVERSION] ++
      leBytes 8 (13 + P.length + (payloadBytes Z fs q1).length) ++ P ++
      payloadBytes Z fs q1) ++ encodeList sorted).length =
      13 + P.length + (payloadBytes Z fs q1).length + (encodeList sorted).length := by
    simp [DATFILESIGNATURE, leBytes_length]
    omega
  have happ := writeAt_append ((DATFILESIGNATURE ++ [DATFILEVERSION] ++
    leBytes 8 (13 + P.length + (payloadBytes Z fs q1).length) ++ P ++
    payloadBytes Z fs q1) ++ encodeList sorted)
    (encodeList ((processQueue Z fs q1 (13 + P.length)).map (fun pe => pe.2)))
  rw [hX3len] at happ
  rw [happ]
  simp [List.append_assoc]

/-- The old table sorted by dataStart, as appendArchive recovers it. -/
def oldSorted (oldEs : List TableEntry) : List TableEntry :=
  sortByDataStart ((emplaceAll [] oldEs).map (fun pair => pair.2))

/-- The queue after appendArchive drops entries colliding with the old
table. -/
def apQueue (oldEs : List TableEntry) (q : List (Nat × TableEntry)) :
    List (Nat × TableEntry) :=
  q.filter (fun pe => ¬ (oldSorted oldEs).any (fun e => e.name = pe.2.name))

theorem oldSorted_perm (oldEs : List TableEntry)
    (hndold : ((oldEs.map (fun e => e.name))).Nodup) :
    List.Perm (oldSorted oldEs) oldEs := by
  unfold oldSorted sortByDataStart
  exact (List.perm_insertionSort _ _).trans (emplaceAll_values_perm oldEs hndold)

/-- appendArchive on a writer-layout archive: succeeds and produces the
writer layout whose payload region gains the filtered queue's payloads and
whose table is the sorted old records followed by the new ones. -/
theorem appendArchive_spec (Z : ZlibModel) (fs : Nat → Option (List Nat))
    (w : DatArchiveWriter) (dest : Nat) (P : List Nat) (oldEs : List TableEntry)
    (hfs : fs dest = some (DATFILESIGNATURE ++ [DATFILEVERSION] ++
      leBytes 8 (13 + P.length) ++ (P ++ encodeList oldEs)))
    (hwfold : ∀ e ∈ oldEs, wfEntry e)
    (hndold : ((oldEs.map (fun e => e.name))).Nodup)
    (hT64 : 13 + P.length < 2 ^ 64) :
    w.appendArchive Z fs dest =
      (true,
       some (DATFILESIGNATURE ++ [DATFILEVERSION] ++
         leBytes 8 (13 + P.length +
           (payloadBytes Z fs (apQueue oldEs w.fileEntries)).length) ++
         ((P ++ payloadBytes Z fs (apQueue oldEs w.fileEntries)) ++
           (encodeList (oldSorted oldEs) ++
             encodeList ((processQueue Z fs (apQueue oldEs w.fileEntries)
               (13 + P.length)).map (fun pe => pe.2))))),
       ⟨processQueue Z fs (apQueue oldEs w.fileEntries) (13 + P.length)⟩) := by
  have hperm := oldSorted_perm oldEs hndold
  have hlenc : (encodeList (oldSorted oldEs)).length = (encodeList oldEs).length :=
    encodeList_length_perm _ _ hperm
  have hcover : (encodeList oldEs).length ≤
      (payloadBytes Z fs (apQueue oldEs w.fileEntries)).length +
        (encodeList (oldSorted oldEs)).length := by
    omega
  have hcore := appendCore Z fs (apQueue oldEs w.fileEntries) (13 + P.length) P
    (encodeList oldEs) (oldSorted oldEs) hcover
  unfold DatArchiveWriter.appendArchive
  rw [hfs]
  dsimp only
  rw [openArchive_layout (13 + P.length) P oldEs rfl hT64 hwfold]
  dsimp only
  rw [if_neg (by simp)]
  simp only [DatArchiveReader.getTable]
  unfold apQueue oldSorted at hcore
  rw [hcore.2, hcore.1]
  unfold apQueue oldSorted
  rfl

/-- Well-formedness facts carried by every processed queue entry. -/
theorem processQueue_map_wf (Z : ZlibModel) (fs : Nat → Option (List Nat))
    (q : List (Nat × TableEntry)) (start : Nat)
    (hq : ∀ pe ∈ q, (fs pe.1).isSome = true ∧ pe.2.name.length < 65536 ∧
      (pe.2.compressionMethod = cmNONE ∨ pe.2.compressionMethod = cmZLIB) ∧
      pe.2.crc32 = 0 ∧ ((fs pe.1).getD []).length < 2 ^ 64)
    (hs : start + (payloadBytes Z fs q).length < 2 ^ 64) :
    ∀ e ∈ (processQueue Z fs q start).map (fun pe => pe.2), wfEntry e := by
  intro e he
  obtain ⟨pe, hpe, hpe2⟩ := List.mem_map.mp he
  rw [← hpe2]
  refine processQueue_wf Z fs q start ?_ hs pe hpe
  intro x hx
  obtain ⟨h1, h2, h3, h4, h5⟩ := hq x hx
  refine ⟨h1, h2, ?_, ?_, h5⟩
  · rcases h3 with h | h <;> rw [h] <;> decide
  · rw [h4]
    decide

theorem append_names_nodup (oldEs newEs : List TableEntry)
    (hndold : ((oldEs.map (fun e => e.name))).Nodup)
    (hndnew : ((newEs.map (fun e => e.name))).Nodup)
    (hdisj : ∀ n ∈ newEs.map (fun e => e.name), ¬ n ∈ oldEs.map (fun e => e.name)) :
    (((oldSorted oldEs ++ newEs).map (fun e => e.name))).Nodup := by
  rw [List.map_append, List.nodup_append]
  have hpermn := (oldSorted_perm oldEs hndold).map (fun e => e.name)
  refine ⟨hpermn.nodup_iff.mpr hndold, hndnew, ?_⟩
  intro a ha hb
  exact hdisj a hb (hpermn.mem_iff.mp ha)

/-- Extracting a payload segment written after an existing payload region. -/
theorem region_extract2 (T : Nat) (P A seg B tbl : List Nat) (n : Nat)
    (hn : n = seg.length) :
    ((DATFILESIGNATURE ++ [DATFILEVERSION] ++ leBytes 8 T ++
      ((P ++ (A ++ (seg ++ B))) ++ tbl)).drop (13 + P.length + A.length)).take n = seg := by
  subst hn
  have h1 : DATFILESIGNATURE ++ [DATFILEVERSION] ++ leBytes 8 T ++
      ((P ++ (A ++ (seg ++ B))) ++ tbl) =
      DATFILESIGNATURE ++ [DATFILEVERSION] ++ leBytes 8 T ++
        (((P ++ A) ++ (seg ++ B)) ++ tbl) := by
    simp [List.append_assoc]
  rw [h1, show (13 : Nat) + P.length + A.length = 13 + (P ++ A).length from by
    simp only [List.length_append]
    omega]
  exact region_extract T (P ++ A) seg B tbl seg.length rfl

/-- The per-entry facts that make an entry of an archive file extractable:
its data lies between the header and the table offset and describes the
given content under its compression method, with a matching stored CRC. -/
def GoodEntry (Z : ZlibModel) (F : List Nat) (T : Nat) (e : TableEntry)
    (c : List Nat) : Prop :=
  13 ≤ e.dataStart ∧ e.dataEnd ≤ T ∧
  ((e.compressionMethod = cmNONE ∧ e.originalSize = c.length ∧
      e.dataEnd = e.dataStart + c.length ∧
      (F.drop e.dataStart).take c.length = c ∧ e.crc32 = crc32z 0 c) ∨
   (e.compressionMethod = cmZLIB ∧ e.originalSize = c.length ∧
      e.dataEnd = e.dataStart + (Z.compress c).length ∧
      (F.drop e.dataStart).take (Z.compress c).length = Z.compress c ∧
      e.crc32 = crc32z 0 (Z.compress c)))

instance (Z : ZlibModel) (F : List Nat) (T : Nat) (e : TableEntry) (c : List Nat) :
    Decidable (GoodEntry Z F T e c) := by
  unfold GoodEntry
  infer_instance

/-- C2: appending a non-colliding queue to a writer-layout archive of M
entries succeeds; the result is the writer layout whose table is the old
entries sorted by dataStart followed by the new entries in queue order; it
opens with M plus N entries; every old entry is indexed unchanged (same
record, same stored CRC) and its content is returned by getFile exactly as
from the original archive; and every queued file's content is returned by
getFile as well. -/
theorem claim2_append_preserves (Z : ZlibModel) (hZ : Z.Sound)
    (fs : Nat → Option (List Nat)) (w : DatArchiveWriter) (dest : Nat)
    (P : List Nat) (oldEs : List TableEntry)
    (hfs : fs dest = some (DATFILESIGNATURE ++ [DATFILEVERSION] ++ leBytes 8 (13 + P.length) ++ (P ++ encodeList oldEs)))
    (hwfold : ∀ e ∈ oldEs, wfEntry e)
    (hndold : ((oldEs.map (fun e => e.name))).Nodup)
    (hwfq : WFQueue fs w.fileEntries)
    (hnocoll : ∀ pe ∈ w.fileEntries, ∀ e ∈ oldEs, ¬ e.name = pe.2.name)
    (hsmall : 13 + P.length + (payloadBytes Z fs w.fileEntries).length < 2 ^ 64) :
    (w.appendArchive Z fs dest).1 = true ∧
    (w.appendArchive Z fs dest).2.1 = some (DATFILESIGNATURE ++ [DATFILEVERSION] ++ leBytes 8 (13 + P.length + (payloadBytes Z fs w.fileEntries).length) ++ ((P ++ payloadBytes Z fs w.fileEntries) ++ encodeList (oldSorted oldEs ++ (processQueue Z fs w.fileEntries (13 + P.length)).map (fun pe => pe.2)))) ∧
    (openArchive (some (DATFILESIGNATURE ++ [DATFILEVERSION] ++ leBytes 8 (13 + P.length + (payloadBytes Z fs w.fileEntries).length) ++ ((P ++ payloadBytes Z fs w.fileEntries) ++ encodeList (oldSorted oldEs ++ (processQueue Z fs w.fileEntries (13 + P.length)).map (fun pe => pe.2)))))).2 = true ∧
    (openArchive (some (DATFILESIGNATURE ++ [DATFILEVERSION] ++ leBytes 8 (13 + P.length + (payloadBytes Z fs w.fileEntries).length) ++ ((P ++ payloadBytes Z fs w.fileEntries) ++ encodeList (oldSorted oldEs ++ (processQueue Z fs w.fileEntries (13 + P.length)).map (fun pe => pe.2)))))).1.size = oldEs.length + w.fileEntries.length ∧
    (∀ e ∈ oldEs, mapLookup (openArchive (some (DATFILESIGNATURE ++ [DATFILEVERSION] ++ leBytes 8 (13 + P.length + (payloadBytes Z fs w.fileEntries).length) ++ ((P ++ payloadBytes Z fs w.fileEntries) ++ encodeList (oldSorted oldEs ++ (processQueue Z fs w.fileEntries (13 + P.length)).map (fun pe => pe.2)))))).1.entries e.name = some e) ∧
    (∀ e ∈ oldEs, ∀ c, GoodEntry Z (DATFILESIGNATURE ++ [DATFILEVERSION] ++ leBytes 8 (13 + P.length) ++ (P ++ encodeList oldEs)) (13 + P.length) e c →
      (DatArchiveReader.getFile Z (openArchive (some (DATFILESIGNATURE ++ [DATFILEVERSION] ++ leBytes 8 (13 + P.length + (payloadBytes Z fs w.fileEntries).length) ++ ((P ++ payloadBytes Z fs w.fileEntries) ++ encodeList (oldSorted oldEs ++ (processQueue Z fs w.fileEntries (13 + P.length)).map (fun pe => pe.2)))))).1 e.name).1 = c ∧
      (DatArchiveReader.getFile Z (openArchive (some (DATFILESIGNATURE ++ [DATFILEVERSION] ++ leBytes 8 (13 + P.length) ++ (P ++ encodeList oldEs)))).1 e.name).1 = c) ∧
    (∀ p e c, (p, e) ∈ w.fileEntries → fs p = some c →
      (DatArchiveReader.getFile Z (openArchive (some (DATFILESIGNATURE ++ [DATFILEVERSION] ++ leBytes 8 (13 + P.length + (payloadBytes Z fs w.fileEntries).length) ++ ((P ++ payloadBytes Z fs w.fileEntries) ++ encodeList (oldSorted oldEs ++ (processQueue Z fs w.fileEntries (13 + P.length)).map (fun pe => pe.2)))))).1 e.name).1 = c) := by
  obtain ⟨hndq, hball⟩ := hwfq
  have hpermOld := oldSorted_perm oldEs hndold
  have hq1 : apQueue oldEs w.fileEntries = w.fileEntries := by
    unfold apQueue
    apply List.filter_eq_self.mpr
    intro pe hpe
    simp only [decide_eq_true_eq, List.any_eq_true]
    push_neg
    intro e he
    exact fun hc => hnocoll pe hpe e (hpermOld.mem_iff.mp he) hc
  have hspec := appendArchive_spec Z fs w dest P oldEs hfs hwfold hndold (by omega)
  rw [hq1, ← encodeList_append] at hspec
  have hwfnew := processQueue_map_wf Z fs w.fileEntries (13 + P.length) hball (by omega)
  have hwf2 : ∀ e ∈ oldSorted oldEs ++ (processQueue Z fs w.fileEntries (13 + P.length)).map (fun pe => pe.2), wfEntry e := by
    intro e he
    rcases List.mem_append.mp he with h | h
    · exact hwfold e (hpermOld.mem_iff.mp h)
    · exact hwfnew e h
  have hnewnames : ((processQueue Z fs w.fileEntries (13 + P.length)).map (fun pe => pe.2)).map (fun e => e.name) =
      w.fileEntries.map (fun pe => pe.2.name) := by
    rw [List.map_map]
    rw [show ((fun e : TableEntry => e.name) ∘ fun pe : Nat × TableEntry => pe.2) =
      fun pe : Nat × TableEntry => pe.2.name from rfl]
    exact processQueue_names Z fs w.fileEntries (13 + P.length)
  have hnod2 : (((oldSorted oldEs ++ (processQueue Z fs w.fileEntries (13 + P.length)).map (fun pe => pe.2)).map (fun e => e.name))).Nodup := by
    refine append_names_nodup oldEs _ hndold (by rw [hnewnames]; exact hndq) ?_
    rw [hnewnames]
    intro n hn hold
    obtain ⟨pe, hpe, hpe2⟩ := List.mem_map.mp hn
    obtain ⟨e, he, he2⟩ := List.mem_map.mp hold
    exact hnocoll pe hpe e he (by rw [he2, ← hpe2])
  have hopen2 := openArchive_layout (13 + P.length + (payloadBytes Z fs w.fileEntries).length)
    (P ++ payloadBytes Z fs w.fileEntries) (oldSorted oldEs ++ (processQueue Z fs w.fileEntries (13 + P.length)).map (fun pe => pe.2)) (by simp only [List.length_append]; omega) hsmall hwf2
  have hlkOld : ∀ e ∈ oldEs,
      mapLookup (emplaceAll [] (oldSorted oldEs ++ (processQueue Z fs w.fileEntries (13 + P.length)).map (fun pe => pe.2))) e.name = some e := by
    intro e he
    exact emplaceAll_lookup _ [] e (List.mem_append.mpr (Or.inl (hpermOld.mem_iff.mpr he)))
      hnod2 (fun _ _ => rfl)
  refine ⟨by rw [hspec], by rw [hspec], by rw [hopen2], ?_, ?_, ?_, ?_⟩
  · rw [hopen2]
    have hlen := (emplaceAll_perm (oldSorted oldEs ++ (processQueue Z fs w.fileEntries (13 + P.length)).map (fun pe => pe.2)) [] (fun _ _ => rfl) hnod2).length_eq
    simp only [List.nil_append, List.length_map] at hlen
    have hlq : (processQueue Z fs w.fileEntries (13 + P.length)).length =
        w.fileEntries.length := by
      have h := congrArg List.length (processQueue_names Z fs w.fileEntries (13 + P.length))
      simpa using h
    have hlold := hpermOld.length_eq
    unfold DatArchiveReader.size
    dsimp only
    rw [hlen]
    simp only [List.length_append, List.length_map]
    omega
  · intro e he
    rw [hopen2]
    exact hlkOld e he
  · intro e he c hge
    obtain ⟨hds13, hdeT, hcase⟩ := hge
    have hlk2 := hlkOld e he
    have hlk1 : mapLookup (emplaceAll [] oldEs) e.name = some e :=
      emplaceAll_lookup oldEs [] e he hndold (fun _ _ => rfl)
    have hopen1 := openArchive_layout (13 + P.length) P oldEs rfl (by omega) hwfold
    rw [hopen2, hopen1]
    have hH2 : (DATFILESIGNATURE ++ [DATFILEVERSION] ++
        leBytes 8 (13 + P.length + (payloadBytes Z fs w.fileEntries).length) : List Nat).length = 13 := by
      simp [DATFILESIGNATURE, leBytes_length]
    have hH1 : (DATFILESIGNATURE ++ [DATFILEVERSION] ++
        leBytes 8 (13 + P.length) : List Nat).length = 13 := by
      simp [DATFILESIGNATURE, leBytes_length]
    rcases hcase with ⟨hcm, horig, hde, hreg1, hcrc⟩ | ⟨hcm, horig, hde, hreg1, hcrc⟩
    · have hreg2 : ((DATFILESIGNATURE ++ [DATFILEVERSION] ++ leBytes 8 (13 + P.length + (payloadBytes Z fs w.fileEntries).length) ++ ((P ++ payloadBytes Z fs w.fileEntries) ++ encodeList (oldSorted oldEs ++ (processQueue Z fs w.fileEntries (13 + P.length)).map (fun pe => pe.2)))).drop e.dataStart).take c.length = c := by
        have hsh : DATFILESIGNATURE ++ [DATFILEVERSION] ++ leBytes 8 (13 + P.length + (payloadBytes Z fs w.fileEntries).length) ++ ((P ++ payloadBytes Z fs w.fileEntries) ++ encodeList (oldSorted oldEs ++ (processQueue Z fs w.fileEntries (13 + P.length)).map (fun pe => pe.2))) =
            (DATFILESIGNATURE ++ [DATFILEVERSION] ++
              leBytes 8 (13 + P.length + (payloadBytes Z fs w.fileEntries).length)) ++
            (P ++ (payloadBytes Z fs w.fileEntries ++ encodeList (oldSorted oldEs ++ (processQueue Z fs w.fileEntries (13 + P.length)).map (fun pe => pe.2)))) := by
          simp [List.append_assoc]
        rw [hsh]
        rw [region_stable _ (DATFILESIGNATURE ++ [DATFILEVERSION] ++
          leBytes 8 (13 + P.length)) P _ (encodeList oldEs) e.dataStart c.length
          hH2 hH1 hds13 (by omega)]
        exact hreg1
      exact ⟨getFile_method_none Z _ DATFILEVERSION _ _ e.name e c hlk2 hcm horig hde
          hreg2 hcrc (by simp [DATFILESIGNATURE, leBytes_length]; omega),
        getFile_method_none Z _ DATFILEVERSION _ _ e.name e c hlk1 hcm horig hde
          hreg1 hcrc (by simp [DATFILESIGNATURE, leBytes_length]; omega)⟩
    · have hreg2 : ((DATFILESIGNATURE ++ [DATFILEVERSION] ++ leBytes 8 (13 + P.length + (payloadBytes Z fs w.fileEntries).length) ++ ((P ++ payloadBytes Z fs w.fileEntries) ++ encodeList (oldSorted oldEs ++ (processQueue Z fs w.fileEntries (13 + P.length)).map (fun pe => pe.2)))).drop e.dataStart).take (Z.compress c).length = Z.compress c := by
        have hsh : DATFILESIGNATURE ++ [DATFILEVERSION] ++ leBytes 8 (13 + P.length + (payloadBytes Z fs w.fileEntries).length) ++ ((P ++ payloadBytes Z fs w.fileEntries) ++ encodeList (oldSorted oldEs ++ (processQueue Z fs w.fileEntries (13 + P.length)).map (fun pe => pe.2))) =
            (DATFILESIGNATURE ++ [DATFILEVERSION] ++
              leBytes 8 (13 + P.length + (payloadBytes Z fs w.fileEntries).length)) ++
            (P ++ (payloadBytes Z fs w.fileEntries ++ encodeList (oldSorted oldEs ++ (processQueue Z fs w.fileEntries (13 + P.length)).map (fun pe => pe.2)))) := by
          simp [List.append_assoc]
        rw [hsh]
        rw [region_stable _ (DATFILESIGNATURE ++ [DATFILEVERSION] ++
          leBytes 8 (13 + P.length)) P _ (encodeList oldEs) e.dataStart
          (Z.compress c).length hH2 hH1 hds13 (by omega)]
        exact hreg1
      exact ⟨getFile_method_zlib Z hZ _ DATFILEVERSION _ _ e.name e c hlk2 hcm horig hde
          hreg2 hcrc (by simp [DATFILESIGNATURE, leBytes_length]; omega),
        getFile_method_zlib Z hZ _ DATFILEVERSION _ _ e.name e c hlk1 hcm horig hde
          hreg1 hcrc (by simp [DATFILESIGNATURE, leBytes_length]; omega)⟩
  · intro p e c hmem hfsp
    obtain ⟨A, B, hA, hmemQ⟩ :=
      processQueue_mem Z fs w.fileEntries (13 + P.length) p e c hmem hfsp
    have he'mem : updatedEntry Z c e (13 + P.length + A.length) ∈ oldSorted oldEs ++ (processQueue Z fs w.fileEntries (13 + P.length)).map (fun pe => pe.2) :=
      List.mem_append.mpr (Or.inr (List.mem_map.2
        ⟨(p, updatedEntry Z c e (13 + P.length + A.length)), hmemQ, rfl⟩))
    have hlk : mapLookup (emplaceAll [] (oldSorted oldEs ++ (processQueue Z fs w.fileEntries (13 + P.length)).map (fun pe => pe.2))) e.name =
        some (updatedEntry Z c e (13 + P.length + A.length)) := by
      have h1 := emplaceAll_lookup _ [] (updatedEntry Z c e (13 + P.length + A.length))
        he'mem hnod2 (fun _ _ => rfl)
      rwa [updatedEntry_name] at h1
    obtain ⟨_, _, hcm2, hcrc0, _⟩ := hball (p, e) hmem
    dsimp only at hcm2 hcrc0
    rw [hopen2]
    dsimp only
    rcases hcm2 with hcmN | hcmZ
    · have hod : onDisk Z e.compressionMethod c = c := by
        unfold onDisk
        rw [if_pos hcmN]
      have he' : updatedEntry Z c e (13 + P.length + A.length) =
          { e with
            dataStart := 13 + P.length + A.length,
            originalSize := c.length,
            crc32 := crc32z 0 c,
            dataEnd := 13 + P.length + A.length + c.length } :=
        updatedEntry_none Z c e _ hcmN
      rw [he'] at hlk
      have hlenPL : (payloadBytes Z fs w.fileEntries).length = A.length + (c.length + B.length) := by
        rw [hA, hod]
        simp
      have hreg : ((DATFILESIGNATURE ++ [DATFILEVERSION] ++ leBytes 8 (13 + P.length + (payloadBytes Z fs w.fileEntries).length) ++ ((P ++ payloadBytes Z fs w.fileEntries) ++ encodeList (oldSorted oldEs ++ (processQueue Z fs w.fileEntries (13 + P.length)).map (fun pe => pe.2)))).drop (13 + P.length + A.length)).take c.length = c := by
        conv_lhs => rw [hA, hod]
        exact region_extract2 _ P A c B _ c.length rfl
      have hb : 13 + P.length + A.length + c.length ≤ (DATFILESIGNATURE ++ [DATFILEVERSION] ++ leBytes 8 (13 + P.length + (payloadBytes Z fs w.fileEntries).length) ++ ((P ++ payloadBytes Z fs w.fileEntries) ++ encodeList (oldSorted oldEs ++ (processQueue Z fs w.fileEntries (13 + P.length)).map (fun pe => pe.2)))).length := by
        simp [DATFILESIGNATURE, leBytes_length]
        omega
      exact getFile_method_none Z _ DATFILEVERSION _ _ e.name _ c hlk hcmN rfl rfl
        hreg rfl hb
    · have hcne : ¬ e.compressionMethod = cmNONE := by
        rw [hcmZ]
        decide
      have hod : onDisk Z e.compressionMethod c = Z.compress c := by
        unfold onDisk
        rw [if_neg hcne, if_pos hcmZ]
      have he' : updatedEntry Z c e (13 + P.length + A.length) =
          { e with
            dataStart := 13 + P.length + A.length,
            originalSize := c.length,
            crc32 := crc32z 0 (Z.compress c),
            dataEnd := 13 + P.length + A.length + (Z.compress c).length } := by
        rw [updatedEntry_zlib Z c e _ hcmZ, hcrc0]
      rw [he'] at hlk
      have hlenPL : (payloadBytes Z fs w.fileEntries).length = A.length + ((Z.compress c).length + B.length) := by
        rw [hA, hod]
        simp
      have hreg : ((DATFILESIGNATURE ++ [DATFILEVERSION] ++ leBytes 8 (13 + P.length + (payloadBytes Z fs w.fileEntries).length) ++ ((P ++ payloadBytes Z fs w.fileEntries) ++ encodeList (oldSorted oldEs ++ (processQueue Z fs w.fileEntries (13 + P.length)).map (fun pe => pe.2)))).drop (13 + P.length + A.length)).take (Z.compress c).length =
          Z.compress c := by
        conv_lhs => rw [hA, hod]
        exact region_extract2 _ P A (Z.compress c) B _ (Z.compress c).length rfl
      have hb : 13 + P.length + A.length + (Z.compress c).length ≤ (DATFILESIGNATURE ++ [DATFILEVERSION] ++ leBytes 8 (13 + P.length + (payloadBytes Z fs w.fileEntries).length) ++ ((P ++ payloadBytes Z fs w.fileEntries) ++ encodeList (oldSorted oldEs ++ (processQueue Z fs w.fileEntries (13 + P.length)).map (fun pe => pe.2)))).length := by
        simp [DATFILESIGNATURE, leBytes_length]
        omega
      exact getFile_method_zlib Z hZ _ DATFILEVERSION _ _ e.name _ c hlk hcmZ rfl rfl
        hreg rfl hb

/-- Concrete single-entry archive and single-file queue for the append
witnesses. -/
def eOld : TableEntry :=
  { name := [3], compressionMethod := cmNONE, crc32 := crc32z 0 [7, 7],
    originalSize := 2, dataStart := 13, dataEnd := 15 }

def wA : DatArchiveWriter := ⟨[(1, { name := [4], compressionMethod := cmNONE })]⟩

def fsA : Nat → Option (List Nat) := fun p =>
  if p = 1 then some [9]
  else if p = 5 then
    some (DATFILESIGNATURE ++ [DATFILEVERSION] ++
      leBytes 8 (13 + ([7, 7] : List Nat).length) ++ ([7, 7] ++ encodeList [eOld]))
  else none

theorem claim2_append_preserves_witness :
    (wA.appendArchive Z0 fsA 5).1 = true ∧
    (DatArchiveReader.getFile Z0
      (openArchive (wA.appendArchive Z0 fsA 5).2.1).1 [3]).1 = [7, 7] ∧
    (DatArchiveReader.getFile Z0
      (openArchive (wA.appendArchive Z0 fsA 5).2.1).1 [4]).1 = [9] := by
  have h := claim2_append_preserves Z0 Z0_sound fsA wA 5 [7, 7] [eOld] rfl
    (by decide) (by decide) (by decide) (by decide) (by decide)
  refine ⟨h.1, ?_, ?_⟩
  · rw [h.2.1]
    exact (h.2.2.2.2.2.1 eOld (by decide) [7, 7] (by decide)).1
  · rw [h.2.1]
    exact h.2.2.2.2.2.2 1 { name := [4], compressionMethod := cmNONE } [9] (by decide) rfl

/-- C6: append collision policy.  appendArchive succeeds even when queued
names collide with existing entries; every colliding queued entry is
dropped (it is filtered from the pending queue and its name is absent from
the newly written records); each existing entry stays indexed unchanged and
its name occurs exactly once in the written table; its content is
unchanged; and the non-colliding remainder of the queue is still written
and retrievable. -/
theorem claim6_append_collision (Z : ZlibModel) (hZ : Z.Sound)
    (fs : Nat → Option (List Nat)) (w : DatArchiveWriter) (dest : Nat)
    (P : List Nat) (oldEs : List TableEntry)
    (hfs : fs dest = some (DATFILESIGNATURE ++ [DATFILEVERSION] ++ leBytes 8 (13 + P.length) ++ (P ++ encodeList oldEs)))
    (hwfold : ∀ e ∈ oldEs, wfEntry e)
    (hndold : ((oldEs.map (fun e => e.name))).Nodup)
    (hwfq : WFQueue fs w.fileEntries)
    (hsmall : 13 + P.length + (payloadBytes Z fs (apQueue oldEs w.fileEntries)).length < 2 ^ 64) :
    (w.appendArchive Z fs dest).1 = true ∧
    (∀ pe ∈ w.fileEntries, (∃ e ∈ oldEs, e.name = pe.2.name) →
      ¬ pe ∈ apQueue oldEs w.fileEntries ∧
      ¬ pe.2.name ∈ ((processQueue Z fs (apQueue oldEs w.fileEntries) (13 + P.length)).map (fun pe => pe.2)).map (fun e => e.name)) ∧
    (∀ e ∈ oldEs,
      mapLookup (openArchive (some (DATFILESIGNATURE ++ [DATFILEVERSION] ++ leBytes 8 (13 + P.length + (payloadBytes Z fs (apQueue oldEs w.fileEntries)).length) ++ ((P ++ payloadBytes Z fs (apQueue oldEs w.fileEntries)) ++ encodeList (oldSorted oldEs ++ (processQueue Z fs (apQueue oldEs w.fileEntries) (13 + P.length)).map (fun pe => pe.2)))))).1.entries e.name = some e ∧
      e.name ∈ (oldSorted oldEs).map (fun x => x.name) ∧
      ¬ e.name ∈ ((processQueue Z fs (apQueue oldEs w.fileEntries) (13 + P.length)).map (fun pe => pe.2)).map (fun x => x.name)) ∧
    (((oldSorted oldEs ++ (processQueue Z fs (apQueue oldEs w.fileEntries) (13 + P.length)).map (fun pe => pe.2)).map (fun x => x.name))).Nodup ∧
    (∀ e ∈ oldEs, ∀ c, GoodEntry Z (DATFILESIGNATURE ++ [DATFILEVERSION] ++ leBytes 8 (13 + P.length) ++ (P ++ encodeList oldEs)) (13 + P.length) e c →
      (DatArchiveReader.getFile Z (openArchive (some (DATFILESIGNATURE ++ [DATFILEVERSION] ++ leBytes 8 (13 + P.length + (payloadBytes Z fs (apQueue oldEs w.fileEntries)).length) ++ ((P ++ payloadBytes Z fs (apQueue oldEs w.fileEntries)) ++ encodeList (oldSorted oldEs ++ (processQueue Z fs (apQueue oldEs w.fileEntries) (13 + P.length)).map (fun pe => pe.2)))))).1 e.name).1 = c) ∧
    (∀ p e c, (p, e) ∈ w.fileEntries → (∀ eo ∈ oldEs, ¬ eo.name = e.name) →
      fs p = some c →
      (DatArchiveReader.getFile Z (openArchive (some (DATFILESIGNATURE ++ [DATFILEVERSION] ++ leBytes 8 (13 + P.length + (payloadBytes Z fs (apQueue oldEs w.fileEntries)).length) ++ ((P ++ payloadBytes Z fs (apQueue oldEs w.fileEntries)) ++ encodeList (oldSorted oldEs ++ (processQueue Z fs (apQueue oldEs w.fileEntries) (13 + P.length)).map (fun pe => pe.2)))))).1 e.name).1 = c) := by
  obtain ⟨hndq, hball⟩ := hwfq
  have hpermOld := oldSorted_perm oldEs hndold
  have hspec := appendArchive_spec Z fs w dest P oldEs hfs hwfold hndold (by omega)
  rw [← encodeList_append] at hspec
  have hballq : ∀ pe ∈ apQueue oldEs w.fileEntries, (fs pe.1).isSome = true ∧ pe.2.name.length < 65536 ∧
      (pe.2.compressionMethod = cmNONE ∨ pe.2.compressionMethod = cmZLIB) ∧
      pe.2.crc32 = 0 ∧ ((fs pe.1).getD []).length < 2 ^ 64 :=
    fun pe hpe => hball pe (List.mem_filter.mp hpe).1
  have hwfnew := processQueue_map_wf Z fs (apQueue oldEs w.fileEntries) (13 + P.length) hballq (by omega)
  have hwf2 : ∀ e ∈ oldSorted oldEs ++ (processQueue Z fs (apQueue oldEs w.fileEntries) (13 + P.length)).map (fun pe => pe.2), wfEntry e := by
    intro e he
    rcases List.mem_append.mp he with h | h
    · exact hwfold e (hpermOld.mem_iff.mp h)
    · exact hwfnew e h
  have hnewnames : ((processQueue Z fs (apQueue oldEs w.fileEntries) (13 + P.length)).map (fun pe => pe.2)).map (fun e => e.name) =
      (apQueue oldEs w.fileEntries).map (fun pe => pe.2.name) := by
    rw [List.map_map]
    rw [show ((fun e : TableEntry => e.name) ∘ fun pe : Nat × TableEntry => pe.2) =
      fun pe : Nat × TableEntry => pe.2.name from rfl]
    exact processQueue_names Z fs (apQueue oldEs w.fileEntries) (13 + P.length)
  have hqnotold : ∀ pe ∈ apQueue oldEs w.fileEntries,
      ¬ pe.2.name ∈ (oldSorted oldEs).map (fun e => e.name) := by
    intro pe hpe hc
    have hpred := (List.mem_filter.mp hpe).2
    simp only [decide_eq_true_eq, List.any_eq_true] at hpred
    obtain ⟨a, ha, ha2⟩ := List.mem_map.mp hc
    exact hpred ⟨a, ha, ha2⟩
  have hndnewq : ((((processQueue Z fs (apQueue oldEs w.fileEntries) (13 + P.length)).map (fun pe => pe.2)).map (fun e => e.name))).Nodup := by
    rw [hnewnames]
    unfold apQueue
    exact hndq.sublist ((List.filter_sublist _).map _)
  have hnod2 : (((oldSorted oldEs ++ (processQueue Z fs (apQueue oldEs w.fileEntries) (13 + P.length)).map (fun pe => pe.2)).map (fun e => e.name))).Nodup := by
    refine append_names_nodup oldEs _ hndold hndnewq ?_
    intro n hn hold
    rw [hnewnames] at hn
    obtain ⟨pe, hpe, hpe2⟩ := List.mem_map.mp hn
    apply hqnotold pe hpe
    rw [hpe2]
    exact ((hpermOld.map (fun e => e.name)).mem_iff).mpr hold
  have hopen2 := openArchive_layout (13 + P.length + (payloadBytes Z fs (apQueue oldEs w.fileEntries)).length)
    (P ++ payloadBytes Z fs (apQueue oldEs w.fileEntries)) (oldSorted oldEs ++ (processQueue Z fs (apQueue oldEs w.fileEntries) (13 + P.length)).map (fun pe => pe.2)) (by simp only [List.length_append]; omega) hsmall hwf2
  have hlkOld : ∀ e ∈ oldEs,
      mapLookup (emplaceAll [] (oldSorted oldEs ++ (processQueue Z fs (apQueue oldEs w.fileEntries) (13 + P.length)).map (fun pe => pe.2))) e.name = some e := by
    intro e he
    exact emplaceAll_lookup _ [] e (List.mem_append.mpr (Or.inl (hpermOld.mem_iff.mpr he)))
      hnod2 (fun _ _ => rfl)
  have hH2 : (DATFILESIGNATURE ++ [DATFILEVERSION] ++
      leBytes 8 (13 + P.length + (payloadBytes Z fs (apQueue oldEs w.fileEntries)).length) : List Nat).length = 13 := by
    simp [DATFILESIGNATURE, leBytes_length]
  have hH1 : (DATFILESIGNATURE ++ [DATFILEVERSION] ++
      leBytes 8 (13 + P.length) : List Nat).length = 13 := by
    simp [DATFILESIGNATURE, leBytes_length]
  refine ⟨by rw [hspec], ?_, ?_, hnod2, ?_, ?_⟩
  · intro pe hpe hcoll
    obtain ⟨e, he, hename⟩ := hcoll
    have hnm : pe.2.name ∈ (oldSorted oldEs).map (fun e => e.name) :=
      List.mem_map.mpr ⟨e, hpermOld.mem_iff.mpr he, hename⟩
    refine ⟨fun hmemq => hqnotold pe hmemq hnm, fun hc => ?_⟩
    rw [hnewnames] at hc
    obtain ⟨qe, hqe, hqe2⟩ := List.mem_map.mp hc
    apply hqnotold qe hqe
    rw [hqe2]
    exact hnm
  · intro e he
    refine ⟨by rw [hopen2]; exact hlkOld e he,
      List.mem_map.mpr ⟨e, hpermOld.mem_iff.mpr he, rfl⟩, ?_⟩
    intro hc
    rw [hnewnames] at hc
    obtain ⟨qe, hqe, hqe2⟩ := List.mem_map.mp hc
    apply hqnotold qe hqe
    rw [hqe2]
    exact List.mem_map.mpr ⟨e, hpermOld.mem_iff.mpr he, rfl⟩
  · intro e he c hge
    obtain ⟨hds13, hdeT, hcase⟩ := hge
    have hlk2 := hlkOld e he
    rw [hopen2]
    rcases hcase with ⟨hcm, horig, hde, hreg1, hcrc⟩ | ⟨hcm, horig, hde, hreg1, hcrc⟩
    · have hreg2 : ((DATFILESIGNATURE ++ [DATFILEVERSION] ++ leBytes 8 (13 + P.length + (payloadBytes Z fs (apQueue oldEs w.fileEntries)).length) ++ ((P ++ payloadBytes Z fs (apQueue oldEs w.fileEntries)) ++ encodeList (oldSorted oldEs ++ (processQueue Z fs (apQueue oldEs w.fileEntries) (13 + P.length)).map (fun pe => pe.2)))).drop e.dataStart).take c.length = c := by
        have hsh : DATFILESIGNATURE ++ [DATFILEVERSION] ++ leBytes 8 (13 + P.length + (payloadBytes Z fs (apQueue oldEs w.fileEntries)).length) ++ ((P ++ payloadBytes Z fs (apQueue oldEs w.fileEntries)) ++ encodeList (oldSorted oldEs ++ (processQueue Z fs (apQueue oldEs w.fileEntries) (13 + P.length)).map (fun pe => pe.2))) =
            (DATFILESIGNATURE ++ [DATFILEVERSION] ++
              leBytes 8 (13 + P.length + (payloadBytes Z fs (apQueue oldEs w.fileEntries)).length)) ++
            (P ++ (payloadBytes Z fs (apQueue oldEs w.fileEntries) ++ encodeList (oldSorted oldEs ++ (processQueue Z fs (apQueue oldEs w.fileEntries) (13 + P.length)).map (fun pe => pe.2)))) := by
          simp [List.append_assoc]
        rw [hsh]
        rw [region_stable _ (DATFILESIGNATURE ++ [DATFILEVERSION] ++
          leBytes 8 (13 + P.length)) P _ (encodeList oldEs) e.dataStart c.length
          hH2 hH1 hds13 (by omega)]
        exact hreg1
      exact getFile_method_none Z _ DATFILEVERSION _ _ e.name e c hlk2 hcm horig hde
        hreg2 hcrc (by simp [DATFILESIGNATURE, leBytes_length]; omega)
    · have hreg2 : ((DATFILESIGNATURE ++ [DATFILEVERSION] ++ leBytes 8 (13 + P.length + (payloadBytes Z fs (apQueue oldEs w.fileEntries)).length) ++ ((P ++ payloadBytes Z fs (apQueue oldEs w.fileEntries)) ++ encodeList (oldSorted oldEs ++ (processQueue Z fs (apQueue oldEs w.fileEntries) (13 + P.length)).map (fun pe => pe.2)))).drop e.dataStart).take (Z.compress c).length =
          Z.compress c := by
        have hsh : DATFILESIGNATURE ++ [DATFILEVERSION] ++ leBytes 8 (13 + P.length + (payloadBytes Z fs (apQueue oldEs w.fileEntries)).length) ++ ((P ++ payloadBytes Z fs (apQueue oldEs w.fileEntries)) ++ encodeList (oldSorted oldEs ++ (processQueue Z fs (apQueue oldEs w.fileEntries) (13 + P.length)).map (fun pe => pe.2))) =
            (DATFILESIGNATURE ++ [DATFILEVERSION] ++
              leBytes 8 (13 + P.length + (payloadBytes Z fs (apQueue oldEs w.fileEntries)).length)) ++
            (P ++ (payloadBytes Z fs (apQueue oldEs w.fileEntries) ++ encodeList (oldSorted oldEs ++ (processQueue Z fs (apQueue oldEs w.fileEntries) (13 + P.length)).map (fun pe => pe.2)))) := by
          simp [List.append_assoc]
        rw [hsh]
        rw [region_stable _ (DATFILESIGNATURE ++ [DATFILEVERSION] ++
          leBytes 8 (13 + P.length)) P _ (encodeList oldEs) e.dataStart
          (Z.compress c).length hH2 hH1 hds13 (by omega)]
        exact hreg1
      exact getFile_method_zlib Z hZ _ DATFILEVERSION _ _ e.name e c hlk2 hcm horig hde
        hreg2 hcrc (by simp [DATFILESIGNATURE, leBytes_length]; omega)
  · intro p e c hmem hnc hfsp
    have hpememq : (p, e) ∈ apQueue oldEs w.fileEntries := by
      unfold apQueue
      refine List.mem_filter.mpr ⟨hmem, ?_⟩
      simp only [decide_eq_true_eq, List.any_eq_true]
      rintro ⟨eo, heo, heq⟩
      exact hnc eo (hpermOld.mem_iff.mp heo) heq
    obtain ⟨A, B, hA, hmemQ⟩ :=
      processQueue_mem Z fs (apQueue oldEs w.fileEntries) (13 + P.length) p e c hpememq hfsp
    have he'mem : updatedEntry Z c e (13 + P.length + A.length) ∈ oldSorted oldEs ++ (processQueue Z fs (apQueue oldEs w.fileEntries) (13 + P.length)).map (fun pe => pe.2) :=
      List.mem_append.mpr (Or.inr (List.mem_map.2
        ⟨(p, updatedEntry Z c e (13 + P.length + A.length)), hmemQ, rfl⟩))
    have hlk : mapLookup (emplaceAll [] (oldSorted oldEs ++ (processQueue Z fs (apQueue oldEs w.fileEntries) (13 + P.length)).map (fun pe => pe.2))) e.name =
        some (updatedEntry Z c e (13 + P.length + A.length)) := by
      have h1 := emplaceAll_lookup _ [] (updatedEntry Z c e (13 + P.length + A.length))
        he'mem hnod2 (fun _ _ => rfl)
      rwa [updatedEntry_name] at h1
    obtain ⟨_, _, hcm2, hcrc0, _⟩ := hball (p, e) hmem
    dsimp only at hcm2 hcrc0
    rw [hopen2]
    dsimp only
    rcases hcm2 with hcmN | hcmZ
    · have hod : onDisk Z e.compressionMethod c = c := by
        unfold onDisk
        rw [if_pos hcmN]
      have he' : updatedEntry Z c e (13 + P.length + A.length) =
          { e with
            dataStart := 13 + P.length + A.length,
            originalSize := c.length,
            crc32 := crc32z 0 c,
            dataEnd := 13 + P.length + A.length + c.length } :=
        updatedEntry_none Z c e _ hcmN
      rw [he'] at hlk
      have hlenPL : (payloadBytes Z fs (apQueue oldEs w.fileEntries)).length = A.length + (c.length + B.length) := by
        rw [hA, hod]
        simp
      have hreg : ((DATFILESIGNATURE ++ [DATFILEVERSION] ++ leBytes 8 (13 + P.length + (payloadBytes Z fs (apQueue oldEs w.fileEntries)).length) ++ ((P ++ payloadBytes Z fs (apQueue oldEs w.fileEntries)) ++ encodeList (oldSorted oldEs ++ (processQueue Z fs (apQueue oldEs w.fileEntries) (13 + P.length)).map (fun pe => pe.2)))).drop (13 + P.length + A.length)).take c.length = c := by
        conv_lhs => rw [hA, hod]
        exact region_extract2 _ P A c B _ c.length rfl
      have hb : 13 + P.length + A.length + c.length ≤ (DATFILESIGNATURE ++ [DATFILEVERSION] ++ leBytes 8 (13 + P.length + (payloadBytes Z fs (apQueue oldEs w.fileEntries)).length) ++ ((P ++ payloadBytes Z fs (apQueue oldEs w.fileEntries)) ++ encodeList (oldSorted oldEs ++ (processQueue Z fs (apQueue oldEs w.fileEntries) (13 + P.length)).map (fun pe => pe.2)))).length := by
        simp [DATFILESIGNATURE, leBytes_length]
        omega
      exact getFile_method_none Z _ DATFILEVERSION _ _ e.name _ c hlk hcmN rfl rfl
        hreg rfl hb
    · have hcne : ¬ e.compressionMethod = cmNONE := by
        rw [hcmZ]
        decide
      have hod : onDisk Z e.compressionMethod c = Z.compress c := by
        unfold onDisk
        rw [if_neg hcne, if_pos hcmZ]
      have he' : updatedEntry Z c e (13 + P.length + A.length) =
          { e with
            dataStart := 13 + P.length + A.length,
            originalSize := c.length,
            crc32 := crc32z 0 (Z.compress c),
            dataEnd := 13 + P.length + A.length + (Z.compress c).length } := by
        rw [updatedEntry_zlib Z c e _ hcmZ, hcrc0]
      rw [he'] at hlk
      have hlenPL : (payloadBytes Z fs (apQueue oldEs w.fileEntries)).length = A.length + ((Z.compress c).length + B.length) := by
        rw [hA, hod]
        simp
      have hreg : ((DATFILESIGNATURE ++ [DATFILEVERSION] ++ leBytes 8 (13 + P.length + (payloadBytes Z fs (apQueue oldEs w.fileEntries)).length) ++ ((P ++ payloadBytes Z fs (apQueue oldEs w.fileEntries)) ++ encodeList (oldSorted oldEs ++ (processQueue Z fs (apQueue oldEs w.fileEntries) (13 + P.length)).map (fun pe => pe.2)))).drop (13 + P.length + A.length)).take (Z.compress c).length =
          Z.compress c := by
        conv_lhs => rw [hA, hod]
        exact region_extract2 _ P A (Z.compress c) B _ (Z.compress c).length rfl
      have hb : 13 + P.length + A.length + (Z.compress c).length ≤ (DATFILESIGNATURE ++ [DATFILEVERSION] ++ leBytes 8 (13 + P.length + (payloadBytes Z fs (apQueue oldEs w.fileEntries)).length) ++ ((P ++ payloadBytes Z fs (apQueue oldEs w.fileEntries)) ++ encodeList (oldSorted oldEs ++ (processQueue Z fs (apQueue oldEs w.fileEntries) (13 + P.length)).map (fun pe => pe.2)))).length := by
        simp [DATFILESIGNATURE, leBytes_length]
        omega
      exact getFile_method_zlib Z hZ _ DATFILEVERSION _ _ e.name _ c hlk hcmZ rfl rfl
        hreg rfl hb

def wC : DatArchiveWriter :=
  ⟨[(1, { name := [4], compressionMethod := cmNONE }),
    (2, { name := [3], compressionMethod := cmNONE })]⟩

def fsC : Nat → Option (List Nat) := fun p =>
  if p = 1 then some [9]
  else if p = 2 then some [8, 8]
  else if p = 5 then
    some (DATFILESIGNATURE ++ [DATFILEVERSION] ++
      leBytes 8 (13 + ([7, 7] : List Nat).length) ++ ([7, 7] ++ encodeList [eOld]))
  else none

theorem claim6_append_collision_witness :
    (wC.appendArchive Z0 fsC 5).1 = true ∧
    (¬ (2, ({ name := [3], compressionMethod := cmNONE } : TableEntry)) ∈
      apQueue [eOld] wC.fileEntries) ∧
    (DatArchiveReader.getFile Z0 (openArchive (some (DATFILESIGNATURE ++ [DATFILEVERSION] ++ leBytes 8 (13 + ([7, 7] : List Nat).length + (payloadBytes Z0 fsC (apQueue [eOld] wC.fileEntries)).length) ++ (([7, 7] ++ payloadBytes Z0 fsC (apQueue [eOld] wC.fileEntries)) ++ encodeList (oldSorted [eOld] ++ (processQueue Z0 fsC (apQueue [eOld] wC.fileEntries) (13 + ([7, 7] : List Nat).length)).map (fun pe => pe.2)))))).1 [3]).1 = [7, 7] := by
  have h := claim6_append_collision Z0 Z0_sound fsC wC 5 [7, 7] [eOld] rfl
    (by decide) (by decide) (by decide) (by decide)
  exact ⟨h.1,
    (h.2.1 (2, { name := [3], compressionMethod := cmNONE }) (by decide)
      ⟨eOld, by decide, rfl⟩).1,
    h.2.2.2.2.1 eOld (by decide) [7, 7] (by decide)⟩

end DatArchive
